import Mathlib

/-!
Verification of `parse_bhash_opreturn.py`.

The source operates on Python hex strings: a raw transaction is a string of
hexadecimal characters, two characters per byte, and every offset in the
source counts characters.  We embed a hex string as `List Char` and model
Python's total (clamped) slicing, `int(s, 16)`, `bytes.fromhex`, and
`int.from_bytes` explicitly.  An uncaught Python exception is modelled with
`PyResult.raised`; `PyResult.ok` is a normal return value.

The model restricts `int(s, 16)` to plain hexadecimal digit strings (no
sign, whitespace or `0x` prefix): every input the theorems quantify over is
the hex image of a byte buffer, where the two behaviours agree.
-/

/-- Result of running a Python function: either a value, or an uncaught
exception (`ValueError` from `int(..., 16)` / `bytes.fromhex`). -/
inductive PyResult (α : Type) where
  | raised : PyResult α
  | ok : α → PyResult α
deriving DecidableEq

instance : Monad PyResult where
  pure := PyResult.ok
  bind m f := match m with
    | .raised => .raised
    | .ok a => f a

/-- Lift an `Option` (internal failure) into `PyResult`. -/
def ofOption : Option α → PyResult α
  | none => .raised
  | some a => .ok a

/-- Python slicing `s[a:b]` for `0 ≤ a ≤ b`: clamped to the list, never
out of range. -/
def pyslice (s : List α) (a b : Nat) : List α := (s.take b).drop a

/-- Value of one hexadecimal digit character, as accepted by `int(s, 16)`. -/
def hexDigitVal (c : Char) : Option Nat :=
  if '0' ≤ c ∧ c ≤ '9' then some (c.toNat - '0'.toNat)
  else if 'a' ≤ c ∧ c ≤ 'f' then some (c.toNat - 'a'.toNat + 10)
  else if 'A' ≤ c ∧ c ≤ 'F' then some (c.toNat - 'A'.toNat + 10)
  else none

/-- Accumulating worker for `parseHexNat`. -/
def parseHexNatAux : List Char → Nat → Option Nat
  | [], acc => some acc
  | c :: cs, acc =>
    match hexDigitVal c with
    | some d => parseHexNatAux cs (acc * 16 + d)
    | none => none

/-- Python `int(s, 16)` on a plain hex-digit string: fails on the empty
string or on a non-hex character (`ValueError`). -/
def parseHexNat : List Char → Option Nat
  | [] => none
  | c :: cs => parseHexNatAux (c :: cs) 0

/-- Python `bytes.fromhex(s)`: fails on an odd-length string or a non-hex
character; otherwise each pair of digits is one byte. -/
def bytesFromHex : List Char → Option (List Nat)
  | [] => some []
  | [_] => none
  | c1 :: c2 :: cs => do
    let d1 ← hexDigitVal c1
    let d2 ← hexDigitVal c2
    let rest ← bytesFromHex cs
    return (d1 * 16 + d2) :: rest

/-- Python `int.from_bytes(bs, 'little')`. -/
def intFromBytesLE : List Nat → Nat
  | [] => 0
  | b :: bs => b + 256 * intFromBytesLE bs

/-- Python `int.from_bytes(bs, 'big')`. -/
def intFromBytesBE (bs : List Nat) : Nat := bs.foldl (fun acc b => acc * 256 + b) 0

/-! ### Source translation: `parse_varint` (src lines 34-48)

Offsets count hex characters, exactly as in the source (one byte is two
characters). -/

/-- `parse_varint(hex_str, offset)` from the source.  `int(...)` failures
propagate as raised exceptions. -/
def parse_varint (hex_str : List Char) (offset : Nat) : PyResult (Nat × Nat) := do
  let first ← ofOption (parseHexNat (pyslice hex_str offset (offset + 2)))
  let offset := offset + 2
  if first < 0xFD then
    return (first, offset)
  else if first = 0xFD then
    let bs ← ofOption (bytesFromHex (pyslice hex_str offset (offset + 4)))
    return (intFromBytesLE bs, offset + 4)
  else if first = 0xFE then
    let bs ← ofOption (bytesFromHex (pyslice hex_str offset (offset + 8)))
    return (intFromBytesLE bs, offset + 8)
  else
    let bs ← ofOption (bytesFromHex (pyslice hex_str offset (offset + 16)))
    return (intFromBytesLE bs, offset + 16)

/-! ### Source translation: `extract_vout_scripts` (src lines 50-99) -/

/-- The input-skipping loop of `extract_vout_scripts` (src lines 71-76):
txid (64 chars), vout index (8), scriptSig length varint, scriptSig,
sequence (8). -/
def skipInputs (data : List Char) : Nat → Nat → PyResult Nat
  | 0, pos => pure pos
  | count + 1, pos => do
    let pos := pos + 64
    let pos := pos + 8
    let (script_len, pos) ← parse_varint data pos
    let pos := pos + script_len * 2
    let pos := pos + 8
    skipInputs data count pos

/-- The output loop of `extract_vout_scripts` (src lines 83-88): value
(16 chars), script length varint, captured script slice.  `scripts` is the
accumulator built by `scripts.append(script)`. -/
def parseOutputs (data : List Char) : Nat → Nat → List (List Char) →
    PyResult (List (List Char) × Nat)
  | 0, pos, scripts => pure (scripts, pos)
  | count + 1, pos, scripts => do
    let pos := pos + 16
    let (script_len, pos) ← parse_varint data pos
    let script := pyslice data pos (pos + script_len * 2)
    let pos := pos + script_len * 2
    parseOutputs data count pos (scripts ++ [script])

/-- Inner witness-item loop (src lines 94-96). -/
def skipWitnessItems (data : List Char) : Nat → Nat → PyResult Nat
  | 0, pos => pure pos
  | count + 1, pos => do
    let (item_len, pos) ← parse_varint data pos
    skipWitnessItems data count (pos + item_len * 2)

/-- Outer witness loop (src lines 92-96), one iteration per input. -/
def skipWitness (data : List Char) : Nat → Nat → PyResult Nat
  | 0, pos => pure pos
  | count + 1, pos => do
    let (witness_count, pos) ← parse_varint data pos
    let pos ← skipWitnessItems data witness_count pos
    skipWitness data count pos

/-- `extract_vout_scripts(tx_hex)` from the source: skip the version,
sniff the segwit marker/flag at characters 8-11, skip the inputs, collect
the output scripts, and (if segwit) skip the witness data.  The locktime is
never read. -/
def extract_vout_scripts (tx_hex : List Char) : PyResult (List (List Char)) := do
  let data := tx_hex
  let pos := 8
  let is_segwit := pyslice data pos (pos + 2) == ['0', '0'] &&
    pyslice data (pos + 2) (pos + 4) == ['0', '1']
  let pos := if is_segwit then pos + 4 else pos
  let (input_count, pos) ← parse_varint data pos
  let pos ← skipInputs data input_count pos
  let (output_count, pos) ← parse_varint data pos
  let (scripts, pos) ← parseOutputs data output_count pos []
  let _ ← if is_segwit then skipWitness data input_count pos else pure pos
  return scripts

/-! ### Source translation: `parse_bhash_from_script` (src lines 101-161) -/

/-- The decoded BHASH record (the dict returned at src lines 154-161).
`bet_dict` is a Python dict with distinct single-character keys inserted in
index order; we model it as the association list in insertion order. -/
structure BhashRecord where
  magic : Nat
  content_type : Nat
  block_height : Nat
  asset_type : Nat
  bet_data : List Nat
  bet_dict : List (Char × Nat)
deriving DecidableEq

/-- `hex_chars = '0123456789abcdef'` (src line 149), as the character list
of that string. -/
def hex_chars : List Char := "0123456789abcdef".toList

/-- The loop at src lines 142-145: 32 raw bytes read as 16 little-endian
u16 values (`range(0, 32, 2)` visits `2*k` for `k < 16`). -/
def betDataOf (raw : List Nat) : List Nat :=
  (List.range 16).map (fun k => intFromBytesLE (pyslice raw (2 * k) (2 * k + 2)))

/-- The loop at src lines 148-152: keep the nonzero amounts, keyed by the
nibble character of their index, in index order. -/
def betDictOf (bet_data : List Nat) : List (Char × Nat) :=
  (bet_data.enum.filter (fun p => 0 < p.2)).map (fun p => (hex_chars.getD p.1 '0', p.2))

/-- `parse_bhash_from_script(script_hex)` from the source.  `.ok none` is
the "not applicable" return; `.raised` is an uncaught exception (only
possible at the unguarded `bytes.fromhex` on src line 124). -/
def parse_bhash_from_script (script_hex : List Char) : PyResult (Option BhashRecord) := do
  if script_hex.take 2 ≠ ['6', 'a'] then
    return none
  else
  let rest := script_hex.drop 2
  if rest.length < 2 then
    return none
  else
  match parseHexNat (pyslice rest 0 2) with
  | none => return none
  | some push_len =>
    let payload_hex_end := 2 + push_len * 2
    if rest.length < payload_hex_end then
      return none
    else do
      let payload_bytes ← ofOption (bytesFromHex (pyslice rest 2 payload_hex_end))
      if payload_bytes.length < 40 then
        return none
      else if payload_bytes.getD 0 0 ≠ 0x91 then
        return none
      else
        let payload := payload_bytes.take 40
        let magic := payload.getD 0 0
        let content_type := payload.getD 1 0
        let block_height := intFromBytesBE (pyslice payload 2 6)
        let asset_type := intFromBytesBE (pyslice payload 6 8)
        let bet_data_raw := pyslice payload 8 40
        let bet_data := betDataOf bet_data_raw
        let bet_dict := betDictOf bet_data
        return some { magic, content_type, block_height, asset_type, bet_data, bet_dict }

/-! ### Byte buffers and their hex images -/

/-- A byte buffer: every entry below 256. -/
def isBytes (bs : List Nat) : Prop := ∀ b ∈ bs, b < 256

instance (bs : List Nat) : Decidable (isBytes bs) := by
  unfold isBytes; infer_instance

/-- Lowercase hex digit of a nibble. -/
def hexDigitChar (n : Nat) : Char := hex_chars.getD n '0'

/-- The two lowercase hex characters of one byte. -/
def hexByte (b : Nat) : List Char := [hexDigitChar (b / 16), hexDigitChar (b % 16)]

/-- The lowercase hex string of a byte buffer (two characters per byte). -/
def hexOfBytes : List Nat → List Char
  | [] => []
  | b :: bs => hexByte b ++ hexOfBytes bs

/-! ### Basic lemmas about the model -/

@[simp]
theorem PyResult.ok_bind (a : α) (f : α → PyResult β) : (PyResult.ok a >>= f) = f a := rfl

@[simp]
theorem PyResult.raised_bind (f : α → PyResult β) :
    (PyResult.raised >>= f) = (PyResult.raised : PyResult β) := rfl

@[simp]
theorem PyResult.pure_eq (a : α) : (pure a : PyResult α) = PyResult.ok a := rfl

@[simp]
theorem ofOption_some (a : α) : ofOption (some a) = PyResult.ok a := rfl

@[simp]
theorem ofOption_none : ofOption (none : Option α) = PyResult.raised := rfl

theorem hexOfBytes_append (a b : List Nat) :
    hexOfBytes (a ++ b) = hexOfBytes a ++ hexOfBytes b := by
  induction a with
  | nil => simp [hexOfBytes]
  | cons x xs ih => simp [hexOfBytes, ih]

@[simp]
theorem hexOfBytes_length (bs : List Nat) : (hexOfBytes bs).length = 2 * bs.length := by
  induction bs with
  | nil => simp [hexOfBytes]
  | cons x xs ih => simp [hexOfBytes, hexByte, ih]; ring

theorem hexOfBytes_take (bs : List Nat) (n : Nat) :
    (hexOfBytes bs).take (2 * n) = hexOfBytes (bs.take n) := by
  induction bs generalizing n with
  | nil => simp [hexOfBytes]
  | cons b bs ih =>
    cases n with
    | zero => simp [hexOfBytes]
    | succ m =>
      rw [show 2 * (m + 1) = 2 * m + 1 + 1 from by ring]
      simp [hexOfBytes, hexByte, List.take_succ_cons, ih]

theorem hexOfBytes_drop (bs : List Nat) (n : Nat) :
    (hexOfBytes bs).drop (2 * n) = hexOfBytes (bs.drop n) := by
  induction bs generalizing n with
  | nil => simp [hexOfBytes]
  | cons b bs ih =>
    cases n with
    | zero => simp [hexOfBytes]
    | succ m =>
      rw [show 2 * (m + 1) = 2 * m + 1 + 1 from by ring]
      simp [hexOfBytes, hexByte, List.drop_succ_cons, ih]

/-- Slicing the hex image at even offsets is the hex image of the byte
slice (Python slices clamp, so no bounds hypotheses are needed). -/
theorem pyslice_hexOfBytes (bs : List Nat) (a b : Nat) :
    pyslice (hexOfBytes bs) (2 * a) (2 * b) = hexOfBytes (pyslice bs a b) := by
  unfold pyslice
  rw [hexOfBytes_take, hexOfBytes_drop]

theorem pyslice_middle (a b c : List α) :
    pyslice (a ++ b ++ c) a.length (a.length + b.length) = b := by
  unfold pyslice
  rw [show a ++ b ++ c = (a ++ b) ++ c from by simp, List.take_left' (by simp),
    List.drop_left]

theorem hexDigitVal_hexDigitChar : ∀ d, d < 16 → hexDigitVal (hexDigitChar d) = some d := by
  decide

theorem parseHexNat_hexByte {b : Nat} (hb : b < 256) : parseHexNat (hexByte b) = some b := by
  have h1 : b / 16 < 16 := Nat.div_lt_of_lt_mul (by omega)
  have h2 : b % 16 < 16 := Nat.mod_lt _ (by omega)
  simp [hexByte, parseHexNat, parseHexNatAux, hexDigitVal_hexDigitChar _ h1,
    hexDigitVal_hexDigitChar _ h2]
  omega

theorem bytesFromHex_hexOfBytes {bs : List Nat} (h : isBytes bs) :
    bytesFromHex (hexOfBytes bs) = some bs := by
  induction bs with
  | nil => rfl
  | cons b bs ih =>
    have hb : b < 256 := h b (by simp)
    have h1 : b / 16 < 16 := Nat.div_lt_of_lt_mul (by omega)
    have h2 : b % 16 < 16 := Nat.mod_lt _ (by omega)
    have htl : isBytes bs := fun x hx => h x (by simp [hx])
    simp [hexOfBytes, hexByte, bytesFromHex, hexDigitVal_hexDigitChar _ h1,
      hexDigitVal_hexDigitChar _ h2, ih htl]
    omega

theorem isBytes_append {a b : List Nat} :
    isBytes (a ++ b) ↔ isBytes a ∧ isBytes b := by
  unfold isBytes
  simp [List.mem_append, or_imp, forall_and]

theorem isBytes_cons {b : Nat} {bs : List Nat} :
    isBytes (b :: bs) ↔ b < 256 ∧ isBytes bs := by
  unfold isBytes
  simp

theorem isBytes_take {bs : List Nat} (h : isBytes bs) (n : Nat) : isBytes (bs.take n) :=
  fun x hx => h x (List.mem_of_mem_take hx)

theorem isBytes_drop {bs : List Nat} (h : isBytes bs) (n : Nat) : isBytes (bs.drop n) :=
  fun x hx => h x (List.mem_of_mem_drop hx)

theorem isBytes_pyslice {bs : List Nat} (h : isBytes bs) (a b : Nat) :
    isBytes (pyslice bs a b) :=
  isBytes_drop (isBytes_take h b) a

/-! ### Little-endian byte strings and the canonical varint encoder -/

/-- `k` little-endian bytes of `n`. -/
def leBytes : Nat → Nat → List Nat
  | 0, _ => []
  | k + 1, n => n % 256 :: leBytes k (n / 256)

@[simp]
theorem leBytes_length (k n : Nat) : (leBytes k n).length = k := by
  induction k generalizing n with
  | zero => rfl
  | succ m ih => simp [leBytes, ih]

theorem isBytes_leBytes (k n : Nat) : isBytes (leBytes k n) := by
  induction k generalizing n with
  | zero => intro x hx; simp [leBytes] at hx
  | succ m ih =>
    rw [leBytes, isBytes_cons]
    exact ⟨Nat.mod_lt _ (by omega), ih _⟩

theorem intFromBytesLE_leBytes {k n : Nat} (h : n < 256 ^ k) :
    intFromBytesLE (leBytes k n) = n := by
  induction k generalizing n with
  | zero => simp at h; simp [leBytes, intFromBytesLE, h]
  | succ m ih =>
    have hd : n / 256 < 256 ^ m := by
      rw [Nat.div_lt_iff_lt_mul (by omega)]
      calc n < 256 ^ (m + 1) := h
        _ = 256 ^ m * 256 := by ring
    simp [leBytes, intFromBytesLE, ih hd]
    omega

/-- The canonical Bitcoin compact-size encoding of `n`. -/
def encodeVarint (n : Nat) : List Nat :=
  if n < 0xFD then [n]
  else if n < 2 ^ 16 then 0xFD :: leBytes 2 n
  else if n < 2 ^ 32 then 0xFE :: leBytes 4 n
  else 0xFF :: leBytes 8 n

theorem isBytes_encodeVarint (n : Nat) : isBytes (encodeVarint n) := by
  unfold encodeVarint
  split
  · intro x hx; simp at hx; omega
  · split
    · rw [isBytes_cons]; exact ⟨by omega, isBytes_leBytes _ _⟩
    · split
      · rw [isBytes_cons]; exact ⟨by omega, isBytes_leBytes _ _⟩
      · rw [isBytes_cons]; exact ⟨by omega, isBytes_leBytes _ _⟩

theorem encodeVarint_length (n : Nat) :
    (encodeVarint n).length =
      if n < 0xFD then 1 else if n < 2 ^ 16 then 3 else if n < 2 ^ 32 then 5 else 9 := by
  unfold encodeVarint
  split <;> [skip; split <;> [skip; split]] <;> simp

theorem encodeVarint_ne_nil (n : Nat) : encodeVarint n ≠ [] := by
  unfold encodeVarint
  split <;> [skip; split <;> [skip; split]] <;> simp

/-! ### The specification's bounds-checked walker

Modelled from the spec (§4.1, §4.2): the byte-level walker in which *every*
advance and read is bounds-checked against the buffer length and any
out-of-range access fails (`TruncatedInput`/`TruncatedTransaction`, both
modelled as `none`).  It exists to state the refinement claim C1 against
the source walker; positions count bytes. -/

/-- Spec §4.2: advance the cursor by `n` bytes, failing if that runs past
the end of a buffer of length `len`. -/
def specAdvance (len pos n : Nat) : Option Nat :=
  if pos + n ≤ len then some (pos + n) else none

/-- Spec §4.1: the varint decoder, failing with `TruncatedInput` whenever
the buffer lacks the bytes the selected encoding needs. -/
def specVarint (bs : List Nat) (pos : Nat) : Option (Nat × Nat) :=
  if pos < bs.length then
    let first := bs.getD pos 0
    if first < 0xFD then some (first, pos + 1)
    else
      let w := if first = 0xFD then 2 else if first = 0xFE then 4 else 8
      if pos + 1 + w ≤ bs.length then
        some (intFromBytesLE (pyslice bs (pos + 1) (pos + 1 + w)), pos + 1 + w)
      else none
  else none

/-- Spec §4.2 step 4: skip each input, every advance checked. -/
def specSkipInputs (bs : List Nat) : Nat → Nat → Option Nat
  | 0, pos => some pos
  | count + 1, pos => do
    let pos ← specAdvance bs.length pos 32
    let pos ← specAdvance bs.length pos 4
    let (script_len, pos) ← specVarint bs pos
    let pos ← specAdvance bs.length pos script_len
    let pos ← specAdvance bs.length pos 4
    specSkipInputs bs count pos

/-- Spec §4.2 step 6: capture each output's script, every advance checked. -/
def specOutputs (bs : List Nat) : Nat → Nat → List (List Nat) →
    Option (List (List Nat) × Nat)
  | 0, pos, acc => some (acc, pos)
  | count + 1, pos, acc => do
    let pos ← specAdvance bs.length pos 8
    let (script_len, pos) ← specVarint bs pos
    let pos2 ← specAdvance bs.length pos script_len
    specOutputs bs count pos2 (acc ++ [pyslice bs pos (pos + script_len)])

/-- Spec §4.2 step 7, inner loop: skip one witness stack's items. -/
def specSkipWitnessItems (bs : List Nat) : Nat → Nat → Option Nat
  | 0, pos => some pos
  | count + 1, pos => do
    let (item_len, pos) ← specVarint bs pos
    let pos ← specAdvance bs.length pos item_len
    specSkipWitnessItems bs count pos

/-- Spec §4.2 step 7: skip witness data, one stack per input. -/
def specSkipWitness (bs : List Nat) : Nat → Nat → Option Nat
  | 0, pos => some pos
  | count + 1, pos => do
    let (witness_count, pos) ← specVarint bs pos
    let pos ← specSkipWitnessItems bs witness_count pos
    specSkipWitness bs count pos

/-- Spec §4.2: `extract_output_scripts` over bytes, with every read and
advance bounds-checked; returns the complete ordered output list or fails. -/
def extract_output_scripts_spec (bs : List Nat) : Option (List (List Nat)) := do
  let pos ← specAdvance bs.length 0 4
  let is_segwit := pyslice bs pos (pos + 2) == [0, 1]
  let pos := if is_segwit then pos + 2 else pos
  let (input_count, pos) ← specVarint bs pos
  let pos ← specSkipInputs bs input_count pos
  let (output_count, pos) ← specVarint bs pos
  let (scripts, pos) ← specOutputs bs output_count pos []
  let _ ← if is_segwit then specSkipWitness bs input_count pos else some pos
  return scripts

/-! ### Transaction encoders (reference serialization, used to state the
well-formed-transaction claims C3 and C4) -/

/-- One transaction input: fields as raw byte lists. -/
structure TxInput where
  prev_txid : List Nat
  prev_vout : List Nat
  scriptSig : List Nat
  sequence : List Nat
deriving DecidableEq

/-- One transaction output. -/
structure TxOutput where
  value : List Nat
  script : List Nat
deriving DecidableEq

/-- Field widths and byte ranges of a well-formed input. -/
def wfInput (i : TxInput) : Prop :=
  i.prev_txid.length = 32 ∧ isBytes i.prev_txid ∧
  i.prev_vout.length = 4 ∧ isBytes i.prev_vout ∧
  isBytes i.scriptSig ∧ i.scriptSig.length < 2 ^ 64 ∧
  i.sequence.length = 4 ∧ isBytes i.sequence

instance (i : TxInput) : Decidable (wfInput i) := by
  unfold wfInput; infer_instance

/-- Field widths and byte ranges of a well-formed output. -/
def wfOutput (o : TxOutput) : Prop :=
  o.value.length = 8 ∧ isBytes o.value ∧ isBytes o.script ∧ o.script.length < 2 ^ 64

instance (o : TxOutput) : Decidable (wfOutput o) := by
  unfold wfOutput; infer_instance

/-- Serialization of one input. -/
def encInput (i : TxInput) : List Nat :=
  i.prev_txid ++ i.prev_vout ++ encodeVarint i.scriptSig.length ++ i.scriptSig ++ i.sequence

/-- Serialization of an input list (without the count). -/
def encInputs (ins : List TxInput) : List Nat := (ins.map encInput).flatten

/-- Serialization of one output. -/
def encOutput (o : TxOutput) : List Nat :=
  o.value ++ encodeVarint o.script.length ++ o.script

/-- Serialization of an output list (without the count). -/
def encOutputs (outs : List TxOutput) : List Nat := (outs.map encOutput).flatten

/-- Serialization of one witness stack item. -/
def encWitnessItem (item : List Nat) : List Nat := encodeVarint item.length ++ item

/-- Serialization of one input's witness stack. -/
def encWitness (w : List (List Nat)) : List Nat :=
  encodeVarint w.length ++ (w.map encWitnessItem).flatten

/-- Serialization of the witness section. -/
def encWitnesses (ws : List (List (List Nat))) : List Nat := (ws.map encWitness).flatten

/-- The legacy (non-segwit) serialization of a transaction. -/
def encodeLegacy (ver : List Nat) (ins : List TxInput) (outs : List TxOutput)
    (lock : List Nat) : List Nat :=
  ver ++ encodeVarint ins.length ++ encInputs ins ++
    encodeVarint outs.length ++ encOutputs outs ++ lock

/-- The segwit (BIP144) serialization: marker `0x00`, flag `0x01`, then the
legacy body, then one witness stack per input, then the locktime. -/
def encodeSegwit (ver : List Nat) (ins : List TxInput) (outs : List TxOutput)
    (wits : List (List (List Nat))) (lock : List Nat) : List Nat :=
  ver ++ [0, 1] ++ encodeVarint ins.length ++ encInputs ins ++
    encodeVarint outs.length ++ encOutputs outs ++ encWitnesses wits ++ lock

/-! ### Varint lemmas at the hex level -/

theorem pyslice_one {l : List α} {pos : Nat} (h : pos < l.length) (d : α) :
    pyslice l pos (pos + 1) = [l.getD pos d] := by
  unfold pyslice
  rw [List.take_succ, List.getElem?_eq_getElem h]
  rw [List.drop_left' (by simp [List.length_take]; omega)]
  simp [List.getD_eq_getElem?_getD, List.getElem?_eq_getElem h]

/-- Reading the first hex-character pair of a varint at an in-range byte
position yields that byte. -/
theorem pyslice_hex_first {bs : List Nat} {pos : Nat} (h : pos < bs.length) :
    pyslice (hexOfBytes bs) (2 * pos) (2 * pos + 2) = hexByte (bs.getD pos 0) := by
  rw [show 2 * pos + 2 = 2 * (pos + 1) from by ring, pyslice_hexOfBytes,
    pyslice_one h 0]
  simp [hexOfBytes]

theorem pyslice_hex_middle (pre mid post : List Nat) :
    pyslice (hexOfBytes (pre ++ mid ++ post)) (2 * pre.length)
      (2 * pre.length + 2 * mid.length) = hexOfBytes mid := by
  rw [show 2 * pre.length + 2 * mid.length = 2 * (pre.length + mid.length) from by ring,
    pyslice_hexOfBytes, pyslice_middle]

/-- A single byte below `0xFD` decodes to itself and consumes one byte
(two hex characters). -/
theorem parse_varint_byte (pre rest : List Nat) {b : Nat} (hb : b < 0xFD) :
    parse_varint (hexOfBytes (pre ++ b :: rest)) (2 * pre.length) =
      .ok (b, 2 * pre.length + 2) := by
  have hfirst : pyslice (hexOfBytes (pre ++ b :: rest)) (2 * pre.length)
      (2 * pre.length + 2) = hexByte b := by
    have := pyslice_hex_middle pre [b] rest
    simpa [hexOfBytes] using this
  unfold parse_varint
  rw [hfirst, parseHexNat_hexByte (by omega)]
  simp [hb]

/-- Prefix `0xFD` plus two payload bytes decodes those bytes little-endian
and consumes three bytes. -/
theorem parse_varint_fd (pre rest b2 : List Nat) (hlen : b2.length = 2)
    (hb : isBytes b2) :
    parse_varint (hexOfBytes (pre ++ 0xFD :: (b2 ++ rest))) (2 * pre.length) =
      .ok (intFromBytesLE b2, 2 * pre.length + 6) := by
  have hfirst : pyslice (hexOfBytes (pre ++ 0xFD :: (b2 ++ rest))) (2 * pre.length)
      (2 * pre.length + 2) = hexByte 0xFD := by
    have := pyslice_hex_middle pre [0xFD] (b2 ++ rest)
    simpa [hexOfBytes] using this
  have hpay : pyslice (hexOfBytes (pre ++ 0xFD :: (b2 ++ rest))) (2 * pre.length + 2)
      (2 * pre.length + 2 + 4) = hexOfBytes b2 := by
    have := pyslice_hex_middle (pre ++ [0xFD]) b2 rest
    simp only [List.length_append, List.length_cons, List.length_nil] at this
    rw [show pre ++ 0xFD :: (b2 ++ rest) = (pre ++ [0xFD]) ++ b2 ++ rest from by simp]
    rw [show 2 * pre.length + 2 = 2 * (pre.length + 1) from by ring,
      show 2 * (pre.length + 1) + 4 = 2 * (pre.length + 1) + 2 * b2.length from by
        rw [hlen]]
    simpa using this
  unfold parse_varint
  rw [hfirst, parseHexNat_hexByte (by omega)]
  simp only [ofOption_some, PyResult.ok_bind]
  norm_num
  rw [hpay, bytesFromHex_hexOfBytes hb]
  rfl

/-- Prefix `0xFE` plus four payload bytes. -/
theorem parse_varint_fe (pre rest b4 : List Nat) (hlen : b4.length = 4)
    (hb : isBytes b4) :
    parse_varint (hexOfBytes (pre ++ 0xFE :: (b4 ++ rest))) (2 * pre.length) =
      .ok (intFromBytesLE b4, 2 * pre.length + 10) := by
  have hfirst : pyslice (hexOfBytes (pre ++ 0xFE :: (b4 ++ rest))) (2 * pre.length)
      (2 * pre.length + 2) = hexByte 0xFE := by
    have := pyslice_hex_middle pre [0xFE] (b4 ++ rest)
    simpa [hexOfBytes] using this
  have hpay : pyslice (hexOfBytes (pre ++ 0xFE :: (b4 ++ rest))) (2 * pre.length + 2)
      (2 * pre.length + 2 + 8) = hexOfBytes b4 := by
    have := pyslice_hex_middle (pre ++ [0xFE]) b4 rest
    simp only [List.length_append, List.length_cons, List.length_nil] at this
    rw [show pre ++ 0xFE :: (b4 ++ rest) = (pre ++ [0xFE]) ++ b4 ++ rest from by simp]
    rw [show 2 * pre.length + 2 = 2 * (pre.length + 1) from by ring,
      show 2 * (pre.length + 1) + 8 = 2 * (pre.length + 1) + 2 * b4.length from by
        rw [hlen]]
    simpa using this
  unfold parse_varint
  rw [hfirst, parseHexNat_hexByte (by omega)]
  simp only [ofOption_some, PyResult.ok_bind]
  norm_num
  rw [hpay, bytesFromHex_hexOfBytes hb]
  rfl

/-- Prefix `0xFF` plus eight payload bytes. -/
theorem parse_varint_ff (pre rest b8 : List Nat) (hlen : b8.length = 8)
    (hb : isBytes b8) :
    parse_varint (hexOfBytes (pre ++ 0xFF :: (b8 ++ rest))) (2 * pre.length) =
      .ok (intFromBytesLE b8, 2 * pre.length + 18) := by
  have hfirst : pyslice (hexOfBytes (pre ++ 0xFF :: (b8 ++ rest))) (2 * pre.length)
      (2 * pre.length + 2) = hexByte 0xFF := by
    have := pyslice_hex_middle pre [0xFF] (b8 ++ rest)
    simpa [hexOfBytes] using this
  have hpay : pyslice (hexOfBytes (pre ++ 0xFF :: (b8 ++ rest))) (2 * pre.length + 2)
      (2 * pre.length + 2 + 16) = hexOfBytes b8 := by
    have := pyslice_hex_middle (pre ++ [0xFF]) b8 rest
    simp only [List.length_append, List.length_cons, List.length_nil] at this
    rw [show pre ++ 0xFF :: (b8 ++ rest) = (pre ++ [0xFF]) ++ b8 ++ rest from by simp]
    rw [show 2 * pre.length + 2 = 2 * (pre.length + 1) from by ring,
      show 2 * (pre.length + 1) + 16 = 2 * (pre.length + 1) + 2 * b8.length from by
        rw [hlen]]
    simpa using this
  unfold parse_varint
  rw [hfirst, parseHexNat_hexByte (by omega)]
  simp only [ofOption_some, PyResult.ok_bind]
  norm_num
  rw [hpay, bytesFromHex_hexOfBytes hb]
  rfl

/-- Decoding the canonical encoding of `n` at byte position `pre.length`
returns `n` and advances past the encoding. -/
theorem parse_varint_encode (pre rest : List Nat) {n : Nat} (hn : n < 2 ^ 64) :
    parse_varint (hexOfBytes (pre ++ encodeVarint n ++ rest)) (2 * pre.length) =
      .ok (n, 2 * pre.length + 2 * (encodeVarint n).length) := by
  unfold encodeVarint
  split
  · rename_i h1
    rw [show (pre ++ [n] ++ rest) = pre ++ n :: rest from by simp]
    rw [parse_varint_byte pre rest h1]
    simp
  · split
    · rename_i h1 h2
      rw [show pre ++ 0xFD :: leBytes 2 n ++ rest = pre ++ 0xFD :: (leBytes 2 n ++ rest)
        from by simp]
      rw [parse_varint_fd pre rest (leBytes 2 n) (leBytes_length 2 n) (isBytes_leBytes 2 n),
        intFromBytesLE_leBytes (by norm_num at h2 ⊢; omega)]
      simp
    · split
      · rename_i h1 h2 h3
        rw [show pre ++ 0xFE :: leBytes 4 n ++ rest = pre ++ 0xFE :: (leBytes 4 n ++ rest)
          from by simp]
        rw [parse_varint_fe pre rest (leBytes 4 n) (leBytes_length 4 n) (isBytes_leBytes 4 n),
          intFromBytesLE_leBytes (by norm_num at h3 ⊢; omega)]
        simp
      · rename_i h1 h2 h3
        rw [show pre ++ 0xFF :: leBytes 8 n ++ rest = pre ++ 0xFF :: (leBytes 8 n ++ rest)
          from by simp]
        rw [parse_varint_ff pre rest (leBytes 8 n) (leBytes_length 8 n) (isBytes_leBytes 8 n),
          intFromBytesLE_leBytes (by norm_num at hn ⊢; omega)]
        simp

/-! ### Claims C7, C8, C10: the varint decoder -/

/-- C7: for every valid varint encoding, `parse_varint` decodes it back to
the original value and consumes exactly the documented byte count (1 byte
below `0xFD`, 3 for prefix `0xFD`, 5 for `0xFE`, 9 for `0xFF`); offsets
count hex characters, two per byte. -/
theorem C7_varint_decode_encode (n : Nat) (rest : List Nat) (hn : n < 2 ^ 64) :
    parse_varint (hexOfBytes (encodeVarint n ++ rest)) 0 =
      .ok (n, 2 * (encodeVarint n).length) ∧
    (encodeVarint n).length =
      (if n < 0xFD then 1 else if n < 2 ^ 16 then 3 else if n < 2 ^ 32 then 5 else 9) := by
  refine ⟨?_, encodeVarint_length n⟩
  have := parse_varint_encode [] rest (n := n) hn
  simpa using this

/-- Witness for C7 at `n = 3`. -/
theorem C7_varint_decode_encode_witness :
    (3 : Nat) < 2 ^ 64 ∧
    (parse_varint (hexOfBytes (encodeVarint 3 ++ [])) 0 =
      .ok (3, 2 * (encodeVarint 3).length) ∧
    (encodeVarint 3).length =
      (if 3 < 0xFD then 1 else if 3 < 2 ^ 16 then 3
        else if 3 < 2 ^ 32 then 5 else 9) : Prop) :=
  ⟨by norm_num, C7_varint_decode_encode 3 [] (by norm_num)⟩

/-- C8 counterexample: a one-byte buffer whose first byte `0xFD` selects
the 3-byte encoding does not fail — the truncated payload is clamped to
the empty byte string, which decodes to `0`, and the offset still advances
by the full width (6 hex characters = 3 bytes). -/
theorem C8_counterexample :
    (hexOfBytes [0xFD]).length = 2 ∧
    parse_varint (hexOfBytes [0xFD]) 0 = .ok (0, 6) := by
  exact ⟨rfl, rfl⟩

/-- C8 amended: `parse_varint` raises (the `ValueError` standing for
`TruncatedInput`) exactly when the first byte of the varint lies at or
beyond the end of the buffer; if the prefix byte is in range, a too-short
multi-byte payload is clamped rather than rejected. -/
theorem C8_amended_raise_iff_first_byte_out (bs : List Nat) (pos : Nat)
    (h : isBytes bs) :
    parse_varint (hexOfBytes bs) (2 * pos) = .raised ↔ bs.length ≤ pos := by
  constructor
  · intro hr
    by_contra hge
    push_neg at hge
    have hb : bs.getD pos 0 < 256 := by
      have hmem : bs.getD pos 0 ∈ bs := by
        rw [List.getD_eq_getElem?_getD, List.getElem?_eq_getElem hge]
        exact List.getElem_mem _
      exact h _ hmem
    unfold parse_varint at hr
    rw [pyslice_hex_first hge, parseHexNat_hexByte hb] at hr
    simp only [ofOption_some, PyResult.ok_bind] at hr
    by_cases h1 : bs.getD pos 0 < 0xFD
    · rw [if_pos h1] at hr
      simp at hr
    · rw [if_neg h1] at hr
      by_cases h2 : bs.getD pos 0 = 0xFD
      · rw [if_pos h2] at hr
        rw [show 2 * pos + 2 + 4 = 2 * (pos + 3) from by ring,
          show 2 * pos + 2 = 2 * (pos + 1) from by ring, pyslice_hexOfBytes,
          bytesFromHex_hexOfBytes (isBytes_pyslice h _ _)] at hr
        simp at hr
      · rw [if_neg h2] at hr
        by_cases h3 : bs.getD pos 0 = 0xFE
        · rw [if_pos h3] at hr
          rw [show 2 * pos + 2 + 8 = 2 * (pos + 5) from by ring,
            show 2 * pos + 2 = 2 * (pos + 1) from by ring, pyslice_hexOfBytes,
            bytesFromHex_hexOfBytes (isBytes_pyslice h _ _)] at hr
          simp at hr
        · rw [if_neg h3] at hr
          rw [show 2 * pos + 2 + 16 = 2 * (pos + 9) from by ring,
            show 2 * pos + 2 = 2 * (pos + 1) from by ring, pyslice_hexOfBytes,
            bytesFromHex_hexOfBytes (isBytes_pyslice h _ _)] at hr
          simp at hr
  · intro hle
    have hempty : pyslice (hexOfBytes bs) (2 * pos) (2 * pos + 2) = [] := by
      unfold pyslice
      apply List.drop_eq_nil_of_le
      have : ((hexOfBytes bs).take (2 * pos + 2)).length ≤ (hexOfBytes bs).length :=
        by simp [List.length_take]
      simp only [hexOfBytes_length] at this ⊢
      simp [List.length_take]
      omega
    unfold parse_varint
    rw [hempty]
    simp [parseHexNat]

/-- Witness for the C8 amended theorem: on the one-byte buffer `[0xAB]`,
reading a varint at byte position 1 (offset 2 in hex characters) raises. -/
theorem C8_amended_witness :
    parse_varint (hexOfBytes [0xAB]) (2 * 1) = .raised :=
  (C8_amended_raise_iff_first_byte_out [0xAB] 1 (by decide)).mpr (by decide)

/-- C10: non-minimal varint encodings are accepted without any
canonicality check — for `v < 0xFD` the 1, 3, 5, and 9 byte encodings of
`v` all decode to `v`, consuming the width selected by the prefix
(offsets count hex characters, two per byte, so the consumed counts are
2, 6, 10, 18 characters = 1, 3, 5, 9 bytes). -/
theorem C10_non_minimal_accepted (v : Nat) (rest : List Nat) (hv : v < 0xFD) :
    parse_varint (hexOfBytes (v :: rest)) 0 = .ok (v, 2) ∧
    parse_varint (hexOfBytes (0xFD :: ([v, 0] ++ rest))) 0 = .ok (v, 6) ∧
    parse_varint (hexOfBytes (0xFE :: ([v, 0, 0, 0] ++ rest))) 0 = .ok (v, 10) ∧
    parse_varint (hexOfBytes (0xFF :: ([v, 0, 0, 0, 0, 0, 0, 0] ++ rest))) 0 =
      .ok (v, 18) := by
  have hbv : isBytes [v, 0] := by
    intro x hx; simp at hx; rcases hx with h | h <;> omega
  have hbv4 : isBytes [v, 0, 0, 0] := by
    intro x hx; simp at hx; rcases hx with h | h <;> omega
  have hbv8 : isBytes [v, 0, 0, 0, 0, 0, 0, 0] := by
    intro x hx; simp at hx; rcases hx with h | h <;> omega
  refine ⟨by simpa using parse_varint_byte [] rest hv, ?_, ?_, ?_⟩
  · have h := parse_varint_fd [] rest [v, 0] rfl hbv
    simpa [intFromBytesLE] using h
  · have h := parse_varint_fe [] rest [v, 0, 0, 0] rfl hbv4
    simpa [intFromBytesLE] using h
  · have h := parse_varint_ff [] rest [v, 0, 0, 0, 0, 0, 0, 0] rfl hbv8
    simpa [intFromBytesLE] using h

/-- Witness for C10 at `v = 7`. -/
theorem C10_non_minimal_accepted_witness :
    (7 : Nat) < 0xFD ∧
    (parse_varint (hexOfBytes (7 :: [])) 0 = .ok (7, 2) ∧
    parse_varint (hexOfBytes (0xFD :: ([7, 0] ++ []))) 0 = .ok (7, 6) ∧
    parse_varint (hexOfBytes (0xFE :: ([7, 0, 0, 0] ++ []))) 0 = .ok (7, 10) ∧
    parse_varint (hexOfBytes (0xFF :: ([7, 0, 0, 0, 0, 0, 0, 0] ++ []))) 0 =
      .ok (7, 18) : Prop) :=
  ⟨by norm_num, C10_non_minimal_accepted 7 [] (by norm_num)⟩

/-! ### Slice lemmas for the BHASH decoder -/

theorem getD_take {l : List α} {i n : Nat} (h : i < n) (d : α) :
    (l.take n).getD i d = l.getD i d := by
  simp [List.getD_eq_getElem?_getD, List.getElem?_take_of_lt h]

theorem pyslice_take {l : List α} {n a b : Nat} (h : b ≤ n) :
    pyslice (l.take n) a b = pyslice l a b := by
  unfold pyslice
  rw [List.take_take, Nat.min_eq_left h]

theorem pyslice_two {l : List α} {a : Nat} (h : a + 1 < l.length) (d : α) :
    pyslice l a (a + 2) = [l.getD a d, l.getD (a + 1) d] := by
  unfold pyslice
  rw [show a + 2 = (a + 1) + 1 from rfl, List.take_succ, List.take_succ]
  rw [List.getElem?_eq_getElem h, List.getElem?_eq_getElem (show a < l.length by omega)]
  simp only [Option.toList_some]
  rw [List.append_assoc, List.drop_left' (by simp [List.length_take]; omega)]
  simp [List.getD_eq_getElem?_getD, List.getElem?_eq_getElem h,
    List.getElem?_eq_getElem (show a < l.length by omega)]

/-- The 16 bet values read from the 32-byte window of a buffer holding at
least 40 bytes, expressed byte by byte. -/
theorem betDataOf_window {p : List Nat} (h : 40 ≤ p.length) :
    betDataOf (pyslice p 8 40) =
      (List.range 16).map
        (fun i => p.getD (8 + 2 * i) 0 + 256 * p.getD (8 + 2 * i + 1) 0) := by
  unfold betDataOf
  apply List.map_congr_left
  intro i hi
  rw [List.mem_range] at hi
  have hcomp : pyslice (pyslice p 8 40) (2 * i) (2 * i + 2) =
      pyslice p (8 + 2 * i) ((8 + 2 * i) + 2) := by
    unfold pyslice
    rw [List.take_drop, List.take_take, Nat.min_eq_left (by omega), List.drop_drop]
    ring_nf
  rw [hcomp, pyslice_two (show (8 + 2 * i) + 1 < p.length by omega) 0]
  simp [intFromBytesLE]

/-! ### Characterizing `parse_bhash_from_script` on byte-buffer scripts -/

/-- Full characterization of the decoder on a script `0x6a :: L :: payload`
(the hex image of an `OP_RETURN` byte, a push length, and payload bytes):
reject when fewer than `L` payload bytes remain, when `L < 40`, or when the
first payload byte is not `0x91`; otherwise decode the first 40 payload
bytes. -/
theorem parse_bhash_cons (L : Nat) (payload : List Nat) (hL : L < 256)
    (hp : isBytes payload) :
    parse_bhash_from_script (hexOfBytes (0x6a :: L :: payload)) =
      if payload.length < L then .ok none
      else if L < 40 then .ok none
      else if (payload.take L).getD 0 0 ≠ 0x91 then .ok none
      else .ok (some
        { magic := (payload.take 40).getD 0 0
          content_type := (payload.take 40).getD 1 0
          block_height := intFromBytesBE (pyslice (payload.take 40) 2 6)
          asset_type := intFromBytesBE (pyslice (payload.take 40) 6 8)
          bet_data := betDataOf (pyslice (payload.take 40) 8 40)
          bet_dict := betDictOf (betDataOf (pyslice (payload.take 40) 8 40)) }) := by
  have htake2 : (hexOfBytes (0x6a :: L :: payload)).take 2 = ['6', 'a'] := rfl
  have hrest : (hexOfBytes (0x6a :: L :: payload)).drop 2 = hexOfBytes (L :: payload) := rfl
  have hrestlen : (hexOfBytes (L :: payload)).length = 2 + 2 * payload.length := by
    simp [hexOfBytes_length]
    omega
  have hpush : pyslice (hexOfBytes (L :: payload)) 0 2 = hexByte L := by
    unfold pyslice
    simp only [List.drop_zero]
    show (hexByte L ++ hexOfBytes payload).take 2 = hexByte L
    exact List.take_left' (by simp [hexByte])
  have hc2 : ¬ (2 + 2 * payload.length < 2) := by omega
  have hpayslice : pyslice (hexOfBytes (L :: payload)) 2 (2 + L * 2) =
      hexOfBytes (payload.take L) := by
    have h := pyslice_hexOfBytes (L :: payload) 1 (1 + L)
    rw [show 2 * (1 + L) = 2 + L * 2 from by ring] at h
    rw [show 2 * 1 = 2 from rfl] at h
    rw [h]
    congr 1
    unfold pyslice
    rw [Nat.add_comm 1 L]
    simp [List.take_succ_cons]
  have hpaybytes : bytesFromHex (hexOfBytes (payload.take L)) = some (payload.take L) :=
    bytesFromHex_hexOfBytes (isBytes_take hp L)
  by_cases hcase1 : payload.length < L
  · rw [if_pos hcase1]
    have hcc : 2 + 2 * payload.length < 2 + L * 2 := by omega
    unfold parse_bhash_from_script
    rw [htake2, if_neg (by simp)]
    simp only [hrest, hrestlen, hpush, parseHexNat_hexByte hL, hc2, hcc, if_true,
      if_false, ite_true, ite_false]
    norm_num
  · rw [if_neg hcase1]
    have hcc : ¬ (2 + 2 * payload.length < 2 + L * 2) := by omega
    have hpaylen : (payload.take L).length = L := by
      rw [List.length_take, Nat.min_eq_left (by omega)]
    by_cases hcase2 : L < 40
    · rw [if_pos hcase2]
      unfold parse_bhash_from_script
      rw [htake2, if_neg (by simp)]
      simp only [hrest, hrestlen, hpush, parseHexNat_hexByte hL, hc2, hcc, hpayslice,
        hpaybytes, ofOption_some, PyResult.ok_bind, hpaylen, hcase2, if_true, if_false,
        ite_true, ite_false]
      norm_num
    · rw [if_neg hcase2]
      have h40eq : (payload.take L).take 40 = payload.take 40 := by
        rw [List.take_take, Nat.min_eq_left (by omega)]
      by_cases hcase3 : (payload.take L).getD 0 0 ≠ 0x91
      · rw [if_pos hcase3]
        unfold parse_bhash_from_script
        rw [htake2, if_neg (by simp)]
        simp only [hrest, hrestlen, hpush, parseHexNat_hexByte hL, hc2, hcc, hpayslice,
          hpaybytes, ofOption_some, PyResult.ok_bind, hpaylen, hcase2, hcase3, h40eq,
          if_true, if_false, ite_true, ite_false]
        norm_num
        intro hcontra
        exact absurd hcontra (by simpa using hcase3)
      · rw [if_neg hcase3]
        unfold parse_bhash_from_script
        rw [htake2, if_neg (by simp)]
        simp only [hrest, hrestlen, hpush, parseHexNat_hexByte hL, hc2, hcc, hpayslice,
          hpaybytes, ofOption_some, PyResult.ok_bind, hpaylen, hcase2, hcase3, h40eq,
          if_true, if_false, ite_true, ite_false]
        norm_num [hcase3]

/-! ### Claim C2: decoding a well-formed BHASH script -/

/-- C2: a script `0x6a`, push length `L ≥ 40`, and at least `L` payload
bytes whose first byte is the magic `0x91` decodes to the record read from
exactly the first 40 payload bytes: byte 0 magic, byte 1 content type,
bytes 2-5 big-endian block height, bytes 6-7 big-endian asset type, bytes
8-39 sixteen little-endian u16 bet values in index order.  The right-hand
side mentions only payload bytes 0-39, and `payload` is arbitrary beyond
the 40th byte, so later bytes never affect the result. -/
theorem C2_bhash_decode (L : Nat) (payload : List Nat) (hL : L < 256)
    (h40 : 40 ≤ L) (hp : isBytes payload) (hlen : L ≤ payload.length)
    (hmagic : payload.getD 0 0 = 0x91) :
    parse_bhash_from_script (hexOfBytes (0x6a :: L :: payload)) = .ok (some
      { magic := 0x91
        content_type := payload.getD 1 0
        block_height := intFromBytesBE (pyslice payload 2 6)
        asset_type := intFromBytesBE (pyslice payload 6 8)
        bet_data := (List.range 16).map
          (fun i => payload.getD (8 + 2 * i) 0 + 256 * payload.getD (8 + 2 * i + 1) 0)
        bet_dict := betDictOf ((List.range 16).map
          (fun i => payload.getD (8 + 2 * i) 0 + 256 * payload.getD (8 + 2 * i + 1) 0)) }) := by
  have hlen40 : 40 ≤ payload.length := le_trans h40 hlen
  have hng : ¬ ((payload.take L).getD 0 0 ≠ 0x91) := by
    rw [getD_take (show (0 : Nat) < L by omega)]
    simp only [ne_eq, not_not]
    exact hmagic
  rw [parse_bhash_cons L payload hL hp, if_neg (by omega), if_neg (by omega), if_neg hng]
  rw [show (payload.take 40).getD 0 0 = (0x91 : Nat) from by
    rw [getD_take (show (0 : Nat) < 40 by omega)]; exact hmagic]
  rw [show (payload.take 40).getD 1 0 = payload.getD 1 0 from
    getD_take (show (1 : Nat) < 40 by omega) 0]
  rw [show pyslice (payload.take 40) 2 6 = pyslice payload 2 6 from
    pyslice_take (show (6 : Nat) ≤ 40 by omega)]
  rw [show pyslice (payload.take 40) 6 8 = pyslice payload 6 8 from
    pyslice_take (show (8 : Nat) ≤ 40 by omega)]
  rw [show pyslice (payload.take 40) 8 40 = pyslice payload 8 40 from
    pyslice_take (show (40 : Nat) ≤ 40 by omega)]
  rw [betDataOf_window hlen40]

/-- Witness for C2: the spec's concrete scenario
`6a 28 91 02 00000064 0002` followed by bet bytes `0a 00` and thirty zero
bytes decodes to content type 2, block height 100, asset type 2, first bet
value 10, `bet_dict = [('0', 10)]`. -/
theorem C2_bhash_decode_witness :
    parse_bhash_from_script (hexOfBytes (0x6a :: 40 ::
        ([0x91, 0x02, 0, 0, 0, 100, 0, 2, 0x0a, 0] ++ List.replicate 30 0))) =
      .ok (some
        { magic := 0x91
          content_type := 2
          block_height := 100
          asset_type := 2
          bet_data := 10 :: List.replicate 15 0
          bet_dict := [('0', 10)] }) := by
  rw [C2_bhash_decode 40 _ (by norm_num) (by norm_num) (by decide) (by decide) (by decide)]
  decide

/-! ### Claim C5: totality of the decoder on byte-buffer scripts -/

/-- Every byte-buffer script either yields the ordinary "not applicable"
result, or passes all four shape checks and yields a record. -/
theorem bhash_cases (bs : List Nat) (hb : isBytes bs) :
    parse_bhash_from_script (hexOfBytes bs) = .ok none ∨
    (bs.take 1 = [0x6a] ∧ 2 + bs.getD 1 0 ≤ bs.length ∧ 40 ≤ bs.getD 1 0 ∧
      pyslice bs 2 3 = [0x91] ∧
      ∃ r, parse_bhash_from_script (hexOfBytes bs) = .ok (some r)) := by
  match bs, hb with
  | [], _ => left; rfl
  | [b0], hb =>
    by_cases h0 : b0 = 0x6a
    · subst h0
      left
      rfl
    · left
      have hb0 : b0 < 256 := hb b0 (by simp)
      have htk : (hexOfBytes [b0]).take 2 = hexByte b0 := by
        show (hexByte b0 ++ hexOfBytes []).take 2 = hexByte b0
        exact List.take_left' (by simp [hexByte])
      have hne : hexByte b0 ≠ ['6', 'a'] := by
        intro he
        have h1 := parseHexNat_hexByte hb0
        rw [he] at h1
        have h2 : parseHexNat ['6', 'a'] = some 0x6a := rfl
        rw [h2] at h1
        injection h1 with h3
        exact h0 h3.symm
      unfold parse_bhash_from_script
      rw [htk, if_pos hne]
      rfl
  | b0 :: b1 :: tl, hb =>
    have hb0 : b0 < 256 := hb b0 (by simp)
    have hb1 : b1 < 256 := hb b1 (by simp)
    have htl : isBytes tl := fun x hx => hb x (by simp [hx])
    by_cases h0 : b0 = 0x6a
    case neg =>
      left
      have htk : (hexOfBytes (b0 :: b1 :: tl)).take 2 = hexByte b0 := by
        show (hexByte b0 ++ hexOfBytes (b1 :: tl)).take 2 = hexByte b0
        exact List.take_left' (by simp [hexByte])
      have hne : hexByte b0 ≠ ['6', 'a'] := by
        intro he
        have h1 := parseHexNat_hexByte hb0
        rw [he] at h1
        have h2 : parseHexNat ['6', 'a'] = some 0x6a := rfl
        rw [h2] at h1
        injection h1 with h3
        exact h0 h3.symm
      unfold parse_bhash_from_script
      rw [htk, if_pos hne]
      rfl
    case pos =>
      subst h0
      rw [show (0x6a : Nat) :: b1 :: tl = 0x6a :: b1 :: tl from rfl]
      rw [parse_bhash_cons b1 tl hb1 htl]
      by_cases hcase1 : tl.length < b1
      · left
        rw [if_pos hcase1]
      · by_cases hcase2 : b1 < 40
        · left
          rw [if_neg hcase1, if_pos hcase2]
        · by_cases hcase3 : (tl.take b1).getD 0 0 ≠ 0x91
          · left
            rw [if_neg hcase1, if_neg hcase2, if_pos hcase3]
          · right
            push_neg at hcase3
            refine ⟨rfl, ?_, ?_, ?_, ?_⟩
            · show 2 + b1 ≤ (0x6a :: b1 :: tl).length
              simp
              omega
            · exact not_lt.mp hcase2
            · have h2lt : 2 < (0x6a :: b1 :: tl).length := by simp; omega
              rw [show (3 : Nat) = 2 + 1 from rfl]
              rw [@pyslice_one Nat (0x6a :: b1 :: tl) 2 (by simp; omega) 0]
              have : (0x6a :: b1 :: tl).getD 2 0 = tl.getD 0 0 := rfl
              rw [this]
              have htk0 : (tl.take b1).getD 0 0 = tl.getD 0 0 :=
                getD_take (show (0 : Nat) < b1 by omega) 0
              rw [htk0] at hcase3
              rw [hcase3]
            · exact ⟨_, by
                rw [if_neg hcase1, if_neg hcase2, if_neg (by simpa using hcase3)]⟩

/-- C5: on every byte-buffer script the decoder is total — it never raises
— and every script that fails a shape check (wrong first opcode, fewer
than `1 + push_len` bytes after the `OP_RETURN` byte, push length below
40, or wrong magic byte) yields the ordinary "not applicable" result
`.ok none`. -/
theorem C5_bhash_total (bs : List Nat) (hb : isBytes bs) :
    (∃ ro, parse_bhash_from_script (hexOfBytes bs) = .ok ro) ∧
    ((bs.take 1 ≠ [0x6a] ∨ bs.length < 2 + bs.getD 1 0 ∨ bs.getD 1 0 < 40 ∨
        pyslice bs 2 3 ≠ [0x91]) →
      parse_bhash_from_script (hexOfBytes bs) = .ok none) := by
  rcases bhash_cases bs hb with h | ⟨h1, h2, h3, h4, r, h5⟩
  · exact ⟨⟨none, h⟩, fun _ => h⟩
  · refine ⟨⟨some r, h5⟩, ?_⟩
    intro hcond
    rcases hcond with hc | hc | hc | hc
    · exact absurd h1 hc
    · exact absurd h2 (by omega)
    · exact absurd h3 (by omega)
    · exact absurd h4 hc

/-- Witness for C5 at the single-byte script `[0x51]` (`OP_1`, not an
`OP_RETURN`). -/
theorem C5_bhash_total_witness :
    isBytes [0x51] ∧
    ((∃ ro, parse_bhash_from_script (hexOfBytes [0x51]) = .ok ro) ∧
    (([0x51].take 1 ≠ [0x6a] ∨ [0x51].length < 2 + [0x51].getD 1 0 ∨
        [0x51].getD 1 0 < 40 ∨ pyslice [0x51] 2 3 ≠ [0x91]) →
      parse_bhash_from_script (hexOfBytes [0x51]) = .ok none) : Prop) :=
  ⟨by decide, C5_bhash_total [0x51] (by decide)⟩

/-! ### Claim C6: the bet_dict invariant -/

/-- Every successfully decoded record has a 16-entry bet vector whose
dictionary is built by the source's nonzero-filtering loop. -/

theorem parse_bhash_ok_some {s : List Char} {r : BhashRecord}
    (h : parse_bhash_from_script s = .ok (some r)) :
    r.bet_data.length = 16 ∧ r.bet_dict = betDictOf r.bet_data := by
  simp only [parse_bhash_from_script] at h
  split at h
  · simp at h
  · split at h
    · simp at h
    · split at h
      · simp at h
      · rename_i push_len heq
        split at h
        · simp at h
        · cases hbf : bytesFromHex (pyslice (s.drop 2) 2 (2 + push_len * 2)) with
          | none => rw [hbf] at h; simp at h
          | some pb =>
            rw [hbf] at h
            simp only [ofOption_some, PyResult.ok_bind] at h
            split at h
            · simp at h
            · split at h
              · simp at h
              · simp only [PyResult.pure_eq, PyResult.ok.injEq, Option.some.injEq] at h
                subst h
                exact ⟨by simp [betDataOf], rfl⟩

theorem getD_of_lt {l : List α} {i : Nat} (h : i < l.length) (d : α) :
    l.getD i d = l[i] := by
  rw [List.getD_eq_getElem?_getD, List.getElem?_eq_getElem h]
  rfl

theorem enum_getElem {bd : List Nat} {i : Nat} (h : i < bd.length)
    (h2 : i < bd.enum.length) : bd.enum[i] = (i, bd[i]) := by
  show (bd.enumFrom 0)[i] = (i, bd[i])
  rw [List.getElem_enumFrom]
  simp

theorem mem_enum_eq {bd : List Nat} {q : Nat × Nat} (h : q ∈ bd.enum) :
    q.1 < bd.length ∧ q.2 = bd.getD q.1 0 := by
  rcases List.mem_iff_getElem.mp h with ⟨j, hj, hqj⟩
  have hjl : j < bd.length := by simpa using hj
  rw [enum_getElem hjl (by simpa using hj)] at hqj
  subst hqj
  exact ⟨hjl, (getD_of_lt hjl 0).symm⟩

theorem betDictOf_forward {bd : List Nat} (i : Nat) (hi : i < bd.length)
    (hpos : 0 < bd.getD i 0) :
    (hexDigitChar i, bd.getD i 0) ∈ betDictOf bd := by
  unfold betDictOf
  refine List.mem_map.mpr ⟨(i, bd[i]), ?_, ?_⟩
  · rw [List.mem_filter]
    refine ⟨?_, ?_⟩
    · exact List.mem_iff_getElem.mpr ⟨i, by simpa using hi, enum_getElem hi (by simpa using hi)⟩
    · rw [← getD_of_lt hi 0]
      simpa using hpos
  · rw [← getD_of_lt hi 0]
    rfl

theorem betDictOf_complete {bd : List Nat} {p : Char × Nat} (hp : p ∈ betDictOf bd) :
    ∃ i, i < bd.length ∧ p.1 = hexDigitChar i ∧ p.2 = bd.getD i 0 ∧ 0 < bd.getD i 0 := by
  unfold betDictOf at hp
  rcases List.mem_map.mp hp with ⟨q, hq, hfq⟩
  rcases List.mem_filter.mp hq with ⟨hqe, hqpos⟩
  rcases mem_enum_eq hqe with ⟨hql, hqv⟩
  refine ⟨q.1, hql, ?_, ?_, ?_⟩
  · rw [← hfq]
    rfl
  · rw [← hfq, ← hqv]
  · rw [← hqv]
    simpa using hqpos

theorem hexDigitChar_strict_mono :
    ∀ i < 16, ∀ j < 16, i < j → hexDigitChar i < hexDigitChar j := by decide

theorem pairwise_fst_lt_enumFrom (bd : List Nat) :
    ∀ n, List.Pairwise (fun (a b : Nat × Nat) => a.1 < b.1) (bd.enumFrom n) := by
  induction bd with
  | nil => intro n; simp
  | cons x xs ih =>
    intro n
    rw [List.enumFrom_cons]
    refine List.Pairwise.cons ?_ (ih (n + 1))
    intro q hq
    rcases List.mem_iff_getElem.mp hq with ⟨j, hj, hqj⟩
    rw [List.getElem_enumFrom] at hqj
    subst hqj
    simp
    omega

theorem betDictOf_sorted {bd : List Nat} (hlen : bd.length ≤ 16) :
    List.Pairwise (fun p q => p.1 < q.1) (betDictOf bd) := by
  unfold betDictOf
  rw [List.pairwise_map]
  have h1 : List.Pairwise (fun (a b : Nat × Nat) => a.1 < b.1) bd.enum :=
    pairwise_fst_lt_enumFrom bd 0
  have h2 : List.Pairwise (fun (a b : Nat × Nat) => a.1 < b.1)
      (bd.enum.filter (fun p => 0 < p.2)) :=
    List.Pairwise.sublist (List.filter_sublist _) h1
  refine h2.imp_of_mem ?_
  intro a b ha hb hab
  have hal := (mem_enum_eq (List.mem_filter.mp ha).1).1
  have hbl := (mem_enum_eq (List.mem_filter.mp hb).1).1
  exact hexDigitChar_strict_mono a.1 (by omega) b.1 (by omega) hab

theorem map_snd_filter_enumFrom (bd : List Nat) : ∀ n,
    ((bd.enumFrom n).filter (fun p => 0 < p.2)).map Prod.snd =
      bd.filter (fun a => 0 < a) := by
  induction bd with
  | nil => intro n; rfl
  | cons x xs ih =>
    intro n
    rw [List.enumFrom_cons]
    by_cases hx : 0 < x
    · rw [List.filter_cons_of_pos (by simpa using hx),
        List.filter_cons_of_pos (by simpa using hx)]
      simp only [List.map_cons]
      rw [ih]
    · rw [List.filter_cons_of_neg (by simpa using hx),
        List.filter_cons_of_neg (by simpa using hx)]
      exact ih _

theorem betDictOf_sum (bd : List Nat) :
    ((betDictOf bd).map Prod.snd).sum = (bd.filter (fun a => 0 < a)).sum := by
  unfold betDictOf
  rw [List.map_map]
  rw [show (Prod.snd ∘ fun (p : Nat × Nat) => (hex_chars.getD p.1 '0', p.2)) =
    (Prod.snd : Nat × Nat → Nat) from rfl]
  rw [show bd.enum = bd.enumFrom 0 from rfl, map_snd_filter_enumFrom bd 0]

/-- C6: for every record returned by `parse_bhash_from_script`, `bet_dict`
maps the nibble label of index `i` to `bet_data[i]` exactly for the indices
`i < 16` with nonzero `bet_data[i]`, contains no other entries, keeps the
entries in ascending index order, and its values sum to the sum of the
nonzero `bet_data` entries. -/
theorem C6_bet_dict_invariant (s : List Char) (r : BhashRecord)
    (h : parse_bhash_from_script s = .ok (some r)) :
    (∀ i, i < 16 → 0 < r.bet_data.getD i 0 →
      (hexDigitChar i, r.bet_data.getD i 0) ∈ r.bet_dict) ∧
    (∀ p ∈ r.bet_dict, ∃ i, i < 16 ∧ p.1 = hexDigitChar i ∧
      p.2 = r.bet_data.getD i 0 ∧ 0 < r.bet_data.getD i 0) ∧
    List.Pairwise (fun p q => p.1 < q.1) r.bet_dict ∧
    ((r.bet_dict.map Prod.snd).sum = (r.bet_data.filter (fun a => 0 < a)).sum) := by
  obtain ⟨hlen, hdict⟩ := parse_bhash_ok_some h
  rw [hdict]
  refine ⟨?_, ?_, ?_, ?_⟩
  · intro i hi hpos
    exact betDictOf_forward i (by omega) hpos
  · intro p hp
    rcases betDictOf_complete hp with ⟨i, hi, h1, h2, h3⟩
    exact ⟨i, by omega, h1, h2, h3⟩
  · exact betDictOf_sorted (by omega)
  · exact betDictOf_sum _

/-- Witness for C6 on the record decoded from the spec's concrete
scenario script. -/
theorem C6_bet_dict_invariant_witness :
    (∀ i, i < 16 → 0 < (10 :: List.replicate 15 0).getD i 0 →
      (hexDigitChar i, (10 :: List.replicate 15 0).getD i 0) ∈ [('0', (10 : Nat))]) ∧
    (∀ p ∈ [('0', (10 : Nat))], ∃ i, i < 16 ∧ p.1 = hexDigitChar i ∧
      p.2 = (10 :: List.replicate 15 0).getD i 0 ∧
      0 < (10 :: List.replicate 15 0).getD i 0) ∧
    List.Pairwise (fun (p q : Char × Nat) => p.1 < q.1) [('0', (10 : Nat))] ∧
    (([('0', (10 : Nat))].map Prod.snd).sum =
      ((10 :: List.replicate 15 0).filter (fun a => 0 < a)).sum) :=
  C6_bet_dict_invariant
    (hexOfBytes (0x6a :: 40 :: ([0x91, 0x02, 0, 0, 0, 100, 0, 2, 0x0a, 0] ++
      List.replicate 30 0)))
    { magic := 0x91, content_type := 2, block_height := 100, asset_type := 2,
      bet_data := 10 :: List.replicate 15 0, bet_dict := [('0', 10)] }
    (by decide)

/-! ### Spec-walker lemmas: decoding the reference serializations, and the
refinement from the spec's bounds-checked byte walker to the source's
hex-string walker (positions double: one byte is two characters). -/


theorem getD_append_length (pre rest : List Nat) (x d : Nat) :
    (pre ++ x :: rest).getD pre.length d = x := by
  rw [List.getD_eq_getElem?_getD, List.getElem?_append_right (le_refl _)]
  simp

/-- The spec varint decoder reads back a canonical encoding. -/
theorem specVarint_encode (pre rest : List Nat) {n : Nat} (hn : n < 2 ^ 64) :
    specVarint (pre ++ encodeVarint n ++ rest) pre.length =
      some (n, (pre ++ encodeVarint n).length) := by
  unfold encodeVarint
  split
  · rename_i h1
    rw [show pre ++ [n] ++ rest = pre ++ n :: rest from by simp]
    unfold specVarint
    rw [getD_append_length]
    rw [if_pos (by simp)]
    rw [if_pos h1]
    simp
  · split
    · rename_i h1 h2
      rw [show pre ++ (0xFD :: leBytes 2 n) ++ rest =
        pre ++ 0xFD :: (leBytes 2 n ++ rest) from by simp]
      unfold specVarint
      rw [getD_append_length]
      rw [if_pos (by simp)]
      rw [if_neg (by norm_num)]
      rw [if_pos (by simp [leBytes_length]; omega)]
      have hsl : pyslice (pre ++ 0xFD :: (leBytes 2 n ++ rest)) (pre.length + 1)
          (pre.length + 1 + 2) = leBytes 2 n := by
        have h := pyslice_middle (pre ++ [0xFD]) (leBytes 2 n) rest
        simp only [List.length_append, List.length_cons, List.length_nil,
          leBytes_length] at h
        rw [show (pre ++ [0xFD]) ++ leBytes 2 n ++ rest =
          pre ++ 0xFD :: (leBytes 2 n ++ rest) from by simp] at h
        simpa using h
      norm_num
      rw [hsl, intFromBytesLE_leBytes (show n < 256 ^ 2 by norm_num at h2 ⊢; omega)]
    · split
      · rename_i h1 h2 h3
        rw [show pre ++ (0xFE :: leBytes 4 n) ++ rest =
          pre ++ 0xFE :: (leBytes 4 n ++ rest) from by simp]
        unfold specVarint
        rw [getD_append_length]
        rw [if_pos (by simp)]
        rw [if_neg (by norm_num)]
        rw [if_pos (by simp [leBytes_length]; omega)]
        have hsl : pyslice (pre ++ 0xFE :: (leBytes 4 n ++ rest)) (pre.length + 1)
            (pre.length + 1 + 4) = leBytes 4 n := by
          have h := pyslice_middle (pre ++ [0xFE]) (leBytes 4 n) rest
          simp only [List.length_append, List.length_cons, List.length_nil,
            leBytes_length] at h
          rw [show (pre ++ [0xFE]) ++ leBytes 4 n ++ rest =
            pre ++ 0xFE :: (leBytes 4 n ++ rest) from by simp] at h
          simpa using h
        norm_num
        rw [hsl, intFromBytesLE_leBytes (show n < 256 ^ 4 by norm_num at h3 ⊢; omega)]
      · rename_i h1 h2 h3
        rw [show pre ++ (0xFF :: leBytes 8 n) ++ rest =
          pre ++ 0xFF :: (leBytes 8 n ++ rest) from by simp]
        unfold specVarint
        rw [getD_append_length]
        rw [if_pos (by simp)]
        rw [if_neg (by norm_num)]
        rw [if_pos (by simp [leBytes_length]; omega)]
        have hsl : pyslice (pre ++ 0xFF :: (leBytes 8 n ++ rest)) (pre.length + 1)
            (pre.length + 1 + 8) = leBytes 8 n := by
          have h := pyslice_middle (pre ++ [0xFF]) (leBytes 8 n) rest
          simp only [List.length_append, List.length_cons, List.length_nil,
            leBytes_length] at h
          rw [show (pre ++ [0xFF]) ++ leBytes 8 n ++ rest =
            pre ++ 0xFF :: (leBytes 8 n ++ rest) from by simp] at h
          simpa using h
        norm_num
        rw [hsl, intFromBytesLE_leBytes (show n < 256 ^ 8 by norm_num at hn ⊢; omega)]

theorem specAdvance_of_le {len pos n : Nat} (h : pos + n ≤ len) :
    specAdvance len pos n = some (pos + n) := by
  unfold specAdvance
  rw [if_pos h]

theorem specSkipInputs_enc (ins : List TxInput) :
    ∀ (pre suffix : List Nat), (∀ i ∈ ins, wfInput i) →
    specSkipInputs (pre ++ encInputs ins ++ suffix) ins.length pre.length =
      some (pre ++ encInputs ins).length := by
  induction ins with
  | nil =>
    intro pre suffix _
    simp [encInputs, specSkipInputs]
  | cons i is ih =>
    intro pre suffix hwf
    obtain ⟨ht32, htb, hv4, hvb, hsb, hslt, hq4, hqb⟩ := hwf i (by simp)
    have hwfs : ∀ j ∈ is, wfInput j := fun j hj => hwf j (by simp [hj])
    have hbs : pre ++ encInputs (i :: is) ++ suffix =
        pre ++ i.prev_txid ++ i.prev_vout ++ encodeVarint i.scriptSig.length ++
          i.scriptSig ++ i.sequence ++ (encInputs is ++ suffix) := by
      simp [encInputs, encInput]
    rw [hbs, List.length_cons]
    simp only [specSkipInputs]
    rw [specAdvance_of_le (show pre.length + 32 ≤ _ by simp [ht32] <;> omega)]
    simp only [Option.bind_eq_bind, Option.some_bind]
    rw [specAdvance_of_le (show pre.length + 32 + 4 ≤ _ by simp [ht32, hv4] <;> omega)]
    simp only [Option.bind_eq_bind, Option.some_bind]
    have hv := specVarint_encode (pre ++ i.prev_txid ++ i.prev_vout)
      (i.scriptSig ++ i.sequence ++ (encInputs is ++ suffix)) hslt
    rw [show (pre ++ i.prev_txid ++ i.prev_vout).length = pre.length + 32 + 4 from by
      simp [ht32, hv4], show (pre ++ i.prev_txid ++ i.prev_vout) ++
        encodeVarint i.scriptSig.length ++
        (i.scriptSig ++ i.sequence ++ (encInputs is ++ suffix)) =
      pre ++ i.prev_txid ++ i.prev_vout ++ encodeVarint i.scriptSig.length ++
        i.scriptSig ++ i.sequence ++ (encInputs is ++ suffix) from by simp] at hv
    rw [hv]
    simp only [Option.bind_eq_bind, Option.some_bind]
    rw [specAdvance_of_le (show ((pre ++ i.prev_txid ++ i.prev_vout) ++
      encodeVarint i.scriptSig.length).length + i.scriptSig.length ≤ _ by
        simp [ht32, hv4] <;> omega)]
    simp only [Option.bind_eq_bind, Option.some_bind]
    rw [specAdvance_of_le (show ((pre ++ i.prev_txid ++ i.prev_vout) ++
      encodeVarint i.scriptSig.length).length + i.scriptSig.length + 4 ≤ _ by
        simp [ht32, hv4] <;> omega)]
    simp only [Option.bind_eq_bind, Option.some_bind]
    have hi := ih (pre ++ encInput i) suffix hwfs
    convert hi using 2
    all_goals simp [encInputs, encInput, ht32, hv4]
    all_goals omega

theorem specOutputs_enc (outs : List TxOutput) :
    ∀ (pre suffix : List Nat) (acc : List (List Nat)), (∀ o ∈ outs, wfOutput o) →
    specOutputs (pre ++ encOutputs outs ++ suffix) outs.length pre.length acc =
      some (acc ++ outs.map (fun o => o.script), (pre ++ encOutputs outs).length) := by
  induction outs with
  | nil =>
    intro pre suffix acc _
    simp [encOutputs, specOutputs]
  | cons o os ih =>
    intro pre suffix acc hwf
    obtain ⟨hval8, hvalb, hsb, hslt⟩ := hwf o (by simp)
    have hwfs : ∀ p ∈ os, wfOutput p := fun p hp => hwf p (by simp [hp])
    have hbs : pre ++ encOutputs (o :: os) ++ suffix =
        pre ++ o.value ++ encodeVarint o.script.length ++ o.script ++
          (encOutputs os ++ suffix) := by
      simp [encOutputs, encOutput]
    rw [hbs, List.length_cons]
    simp only [specOutputs]
    rw [specAdvance_of_le (show pre.length + 8 ≤ _ by simp [hval8] <;> omega)]
    simp only [Option.bind_eq_bind, Option.some_bind]
    have hv := specVarint_encode (pre ++ o.value)
      (o.script ++ (encOutputs os ++ suffix)) hslt
    rw [show (pre ++ o.value).length = pre.length + 8 from by simp [hval8],
      show (pre ++ o.value) ++ encodeVarint o.script.length ++
        (o.script ++ (encOutputs os ++ suffix)) =
        pre ++ o.value ++ encodeVarint o.script.length ++ o.script ++
          (encOutputs os ++ suffix) from by simp] at hv
    rw [hv]
    simp only [Option.bind_eq_bind, Option.some_bind]
    rw [specAdvance_of_le (show ((pre ++ o.value) ++ encodeVarint o.script.length).length
      + o.script.length ≤ _ by simp [hval8] <;> omega)]
    simp only [Option.bind_eq_bind, Option.some_bind]
    have hcap : pyslice (pre ++ o.value ++ encodeVarint o.script.length ++ o.script ++
        (encOutputs os ++ suffix)) ((pre ++ o.value) ++ encodeVarint o.script.length).length
        (((pre ++ o.value) ++ encodeVarint o.script.length).length + o.script.length) =
        o.script := by
      have h := pyslice_middle (pre ++ o.value ++ encodeVarint o.script.length) o.script
        (encOutputs os ++ suffix)
      simpa using h
    rw [hcap]
    have hi := ih (pre ++ encOutput o) suffix (acc ++ [o.script]) hwfs
    convert hi using 2
    all_goals simp [encOutputs, encOutput, hval8]
    all_goals omega

theorem specSkipWitnessItems_enc (items : List (List Nat)) :
    ∀ (pre suffix : List Nat), (∀ it ∈ items, it.length < 2 ^ 64) →
    specSkipWitnessItems (pre ++ (items.map encWitnessItem).flatten ++ suffix)
      items.length pre.length =
      some (pre ++ (items.map encWitnessItem).flatten).length := by
  induction items with
  | nil =>
    intro pre suffix _
    simp [specSkipWitnessItems]
  | cons it its ih =>
    intro pre suffix hwf
    have hbs : pre ++ ((it :: its).map encWitnessItem).flatten ++ suffix =
        pre ++ encodeVarint it.length ++ it ++
          ((its.map encWitnessItem).flatten ++ suffix) := by
      simp [encWitnessItem]
    rw [hbs, List.length_cons]
    simp only [specSkipWitnessItems]
    have hv := specVarint_encode pre (it ++ ((its.map encWitnessItem).flatten ++ suffix))
      (hwf it (by simp))
    rw [show pre ++ encodeVarint it.length ++
      (it ++ ((its.map encWitnessItem).flatten ++ suffix)) =
      pre ++ encodeVarint it.length ++ it ++
        ((its.map encWitnessItem).flatten ++ suffix) from by simp] at hv
    rw [hv]
    simp only [Option.bind_eq_bind, Option.some_bind]
    rw [specAdvance_of_le (show (pre ++ encodeVarint it.length).length + it.length ≤ _ by
      simp <;> omega)]
    simp only [Option.bind_eq_bind, Option.some_bind]
    have hi := ih (pre ++ encWitnessItem it) suffix (fun x hx => hwf x (by simp [hx]))
    convert hi using 2
    all_goals simp [encWitnessItem]
    all_goals omega

theorem specSkipWitness_enc (ws : List (List (List Nat))) :
    ∀ (pre suffix : List Nat),
    (∀ w ∈ ws, w.length < 2 ^ 64 ∧ ∀ it ∈ w, it.length < 2 ^ 64) →
    specSkipWitness (pre ++ encWitnesses ws ++ suffix) ws.length pre.length =
      some (pre ++ encWitnesses ws).length := by
  induction ws with
  | nil =>
    intro pre suffix _
    simp [encWitnesses, specSkipWitness]
  | cons w wss ih =>
    intro pre suffix hwf
    obtain ⟨hwc, hwi⟩ := hwf w (by simp)
    have hbs : pre ++ encWitnesses (w :: wss) ++ suffix =
        pre ++ encodeVarint w.length ++
          ((w.map encWitnessItem).flatten ++ (encWitnesses wss ++ suffix)) := by
      simp [encWitnesses, encWitness]
    rw [hbs, List.length_cons]
    simp only [specSkipWitness]
    have hv := specVarint_encode pre
      ((w.map encWitnessItem).flatten ++ (encWitnesses wss ++ suffix)) hwc
    rw [hv]
    simp only [Option.bind_eq_bind, Option.some_bind]
    have hit := specSkipWitnessItems_enc w (pre ++ encodeVarint w.length)
      (encWitnesses wss ++ suffix) hwi
    rw [show (pre ++ encodeVarint w.length) ++ (w.map encWitnessItem).flatten ++
      (encWitnesses wss ++ suffix) = pre ++ encodeVarint w.length ++
        ((w.map encWitnessItem).flatten ++ (encWitnesses wss ++ suffix)) from by simp] at hit
    rw [hit]
    simp only [Option.bind_eq_bind, Option.some_bind]
    have hi := ih (pre ++ encWitness w) suffix (fun x hx => hwf x (by simp [hx]))
    convert hi using 2
    all_goals simp [encWitnesses, encWitness]
    all_goals omega

theorem pyslice_4_6 {ver rest' : List Nat} (h4 : ver.length = 4) (fb : Nat) :
    pyslice (ver ++ fb :: rest') 4 6 = fb :: rest'.take 1 := by
  unfold pyslice
  rw [show (6 : Nat) = ver.length + 2 from by omega, List.take_append]
  rw [List.drop_left' h4]
  rfl

theorem encodeVarint_head_cons {n fb : Nat} {tl : List Nat}
    (h : encodeVarint n = fb :: tl) : (fb = 0 ↔ n = 0) ∧ (fb = 1 ↔ n = 1) := by
  unfold encodeVarint at h
  split at h
  · injection h with h1 h2
    subst h1
    exact ⟨Iff.rfl, Iff.rfl⟩
  · rename_i h1
    split at h
    · injection h with h2 h3
      constructor <;> constructor <;> omega
    · rename_i h2
      split at h
      · injection h with h3 h4
        constructor <;> constructor <;> omega
      · injection h with h3 h4
        constructor <;> constructor <;> omega

theorem cons_beq_zero_one_false {fb : Nat} {x : List Nat} (h : fb ≠ 0) :
    ((fb :: x) == [0, 1]) = false := by
  rw [beq_eq_false_iff_ne]
  intro he
  injection he with h1 h2
  exact h h1

theorem cons_cons_beq_zero_one_false {s : Nat} {x : List Nat} (h : s ≠ 1) :
    ((0 :: s :: x) == [0, 1]) = false := by
  rw [beq_eq_false_iff_ne]
  intro he
  injection he with h1 h2
  injection h2 with h3 h4
  exact h h3

/-- The spec walker extracts exactly the output scripts from a legacy
encoding, except in the ambiguous `k = 0, n = 1` case that looks like a
segwit marker/flag. -/
theorem spec_extract_legacy (ver : List Nat) (ins : List TxInput) (outs : List TxOutput)
    (lock : List Nat) (h4 : ver.length = 4)
    (hins : ∀ i ∈ ins, wfInput i) (houts : ∀ o ∈ outs, wfOutput o)
    (hk : ins.length < 2 ^ 64) (hn : outs.length < 2 ^ 64)
    (hno : ¬ (ins = [] ∧ outs.length = 1)) :
    extract_output_scripts_spec (encodeLegacy ver ins outs lock) =
      some (outs.map (fun o => o.script)) := by
  cases hev : encodeVarint ins.length with
  | nil => exact absurd hev (encodeVarint_ne_nil _)
  | cons fb tl =>
  obtain ⟨hfb0, hfb1⟩ := encodeVarint_head_cons hev
  have hsniff : (pyslice (encodeLegacy ver ins outs lock) 4 6 == [0, 1]) = false := by
    by_cases hins0 : ins = []
    · subst hins0
      have hn1 : outs.length ≠ 1 := fun h => hno ⟨rfl, h⟩
      cases hevn : encodeVarint outs.length with
      | nil => exact absurd hevn (encodeVarint_ne_nil _)
      | cons fn tn =>
        obtain ⟨hfn0, hfn1⟩ := encodeVarint_head_cons hevn
        have hB : encodeLegacy ver [] outs lock =
            ver ++ 0 :: (fn :: (tn ++ encOutputs outs ++ lock)) := by
          simp [encodeLegacy, encInputs,
            show encodeVarint 0 = [0] from by norm_num [encodeVarint], hevn]
        rw [hB, pyslice_4_6 h4]
        simp only [List.take_succ_cons, List.take_zero]
        exact cons_cons_beq_zero_one_false (fun h => hn1 (hfn1.mp h))
    · have hk0 : ins.length ≠ 0 := by simpa using hins0
      have hfbne : fb ≠ 0 := fun h => hk0 (hfb0.mp h)
      have hB : encodeLegacy ver ins outs lock =
          ver ++ fb :: (tl ++ encInputs ins ++ encodeVarint outs.length ++
            encOutputs outs ++ lock) := by
        simp [encodeLegacy, hev]
      rw [hB, pyslice_4_6 h4]
      exact cons_beq_zero_one_false hfbne
  unfold extract_output_scripts_spec
  rw [specAdvance_of_le (show 0 + 4 ≤ (encodeLegacy ver ins outs lock).length by
    simp [encodeLegacy, h4] <;> omega)]
  simp only [Option.bind_eq_bind, Option.some_bind]
  norm_num
  have hsniffP : pyslice (encodeLegacy ver ins outs lock) 4 6 ≠ [0, 1] :=
    beq_eq_false_iff_ne.mp hsniff
  simp only [if_neg hsniffP]
  have hvk := specVarint_encode ver
    (encInputs ins ++ encodeVarint outs.length ++ encOutputs outs ++ lock) hk
  rw [show ver ++ encodeVarint ins.length ++
    (encInputs ins ++ encodeVarint outs.length ++ encOutputs outs ++ lock) =
    encodeLegacy ver ins outs lock from by simp [encodeLegacy], h4] at hvk
  rw [hvk]
  simp only [Option.bind_eq_bind, Option.some_bind]
  have hskip := specSkipInputs_enc ins (ver ++ encodeVarint ins.length)
    (encodeVarint outs.length ++ encOutputs outs ++ lock) hins
  rw [show ver ++ encodeVarint ins.length ++ encInputs ins ++
    (encodeVarint outs.length ++ encOutputs outs ++ lock) =
    encodeLegacy ver ins outs lock from by simp [encodeLegacy]] at hskip
  rw [hskip]
  simp only [Option.bind_eq_bind, Option.some_bind]
  have hvn := specVarint_encode (ver ++ encodeVarint ins.length ++ encInputs ins)
    (encOutputs outs ++ lock) hn
  rw [show ver ++ encodeVarint ins.length ++ encInputs ins ++ encodeVarint outs.length ++
    (encOutputs outs ++ lock) = encodeLegacy ver ins outs lock from by
      simp [encodeLegacy]] at hvn
  rw [hvn]
  simp only [Option.bind_eq_bind, Option.some_bind]
  have hout := specOutputs_enc outs
    (ver ++ encodeVarint ins.length ++ encInputs ins ++ encodeVarint outs.length)
    lock [] houts
  rw [show ver ++ encodeVarint ins.length ++ encInputs ins ++ encodeVarint outs.length ++
    encOutputs outs ++ lock = encodeLegacy ver ins outs lock from by
      simp [encodeLegacy]] at hout
  rw [hout]
  simp only [Option.bind_eq_bind, Option.some_bind]
  simp

/-- The spec walker extracts exactly the output scripts from a segwit
encoding, for any witness data. -/
theorem spec_extract_segwit (ver : List Nat) (ins : List TxInput) (outs : List TxOutput)
    (wits : List (List (List Nat))) (lock : List Nat) (h4 : ver.length = 4)
    (hins : ∀ i ∈ ins, wfInput i) (houts : ∀ o ∈ outs, wfOutput o)
    (hwits : ∀ w ∈ wits, w.length < 2 ^ 64 ∧ ∀ it ∈ w, it.length < 2 ^ 64)
    (hk : ins.length < 2 ^ 64) (hn : outs.length < 2 ^ 64)
    (hwl : wits.length = ins.length) :
    extract_output_scripts_spec (encodeSegwit ver ins outs wits lock) =
      some (outs.map (fun o => o.script)) := by
  have hsniffP : pyslice (encodeSegwit ver ins outs wits lock) 4 6 = [0, 1] := by
    have hB : encodeSegwit ver ins outs wits lock =
        ver ++ 0 :: (1 :: (encodeVarint ins.length ++ encInputs ins ++
          encodeVarint outs.length ++ encOutputs outs ++ encWitnesses wits ++ lock)) := by
      simp [encodeSegwit]
    rw [hB, pyslice_4_6 h4]
    simp
  unfold extract_output_scripts_spec
  rw [specAdvance_of_le (show 0 + 4 ≤ (encodeSegwit ver ins outs wits lock).length by
    simp [encodeSegwit, h4] <;> omega)]
  simp only [Option.bind_eq_bind, Option.some_bind]
  norm_num
  simp only [if_pos hsniffP]
  have hvk := specVarint_encode (ver ++ [0, 1]) (encInputs ins ++
    encodeVarint outs.length ++ encOutputs outs ++ encWitnesses wits ++ lock) hk
  rw [show (ver ++ [0, 1]) ++ encodeVarint ins.length ++ (encInputs ins ++
    encodeVarint outs.length ++ encOutputs outs ++ encWitnesses wits ++ lock) =
    encodeSegwit ver ins outs wits lock from by simp [encodeSegwit]] at hvk
  have hvk6 : specVarint (encodeSegwit ver ins outs wits lock) 6 =
      some (ins.length, (ver ++ [0, 1] ++ encodeVarint ins.length).length) := by
    rw [show (6 : Nat) = (ver ++ [0, 1]).length from by simp [h4]]
    exact hvk
  rw [hvk6]
  simp only [Option.bind_eq_bind, Option.some_bind]
  have hskip := specSkipInputs_enc ins ((ver ++ [0, 1]) ++ encodeVarint ins.length)
    (encodeVarint outs.length ++ encOutputs outs ++ encWitnesses wits ++ lock) hins
  rw [show (ver ++ [0, 1]) ++ encodeVarint ins.length ++ encInputs ins ++
    (encodeVarint outs.length ++ encOutputs outs ++ encWitnesses wits ++ lock) =
    encodeSegwit ver ins outs wits lock from by simp [encodeSegwit]] at hskip
  rw [hskip]
  simp only [Option.bind_eq_bind, Option.some_bind]
  have hvn := specVarint_encode ((ver ++ [0, 1]) ++ encodeVarint ins.length ++
    encInputs ins) (encOutputs outs ++ encWitnesses wits ++ lock) hn
  rw [show (ver ++ [0, 1]) ++ encodeVarint ins.length ++ encInputs ins ++
    encodeVarint outs.length ++ (encOutputs outs ++ encWitnesses wits ++ lock) =
    encodeSegwit ver ins outs wits lock from by simp [encodeSegwit]] at hvn
  rw [hvn]
  simp only [Option.bind_eq_bind, Option.some_bind]
  have hout := specOutputs_enc outs ((ver ++ [0, 1]) ++ encodeVarint ins.length ++
    encInputs ins ++ encodeVarint outs.length) (encWitnesses wits ++ lock) [] houts
  rw [show (ver ++ [0, 1]) ++ encodeVarint ins.length ++ encInputs ins ++
    encodeVarint outs.length ++ encOutputs outs ++ (encWitnesses wits ++ lock) =
    encodeSegwit ver ins outs wits lock from by simp [encodeSegwit]] at hout
  rw [hout]
  simp only [Option.bind_eq_bind, Option.some_bind]
  have hwit := specSkipWitness_enc wits ((ver ++ [0, 1]) ++ encodeVarint ins.length ++
    encInputs ins ++ encodeVarint outs.length ++ encOutputs outs) lock hwits
  rw [show (ver ++ [0, 1]) ++ encodeVarint ins.length ++ encInputs ins ++
    encodeVarint outs.length ++ encOutputs outs ++ encWitnesses wits ++ lock =
    encodeSegwit ver ins outs wits lock from by simp [encodeSegwit], hwl] at hwit
  rw [hwit]
  simp only [Option.bind_eq_bind, Option.some_bind]
  simp

/-- When the spec varint decoder succeeds, the source decoder agrees
(at doubled, hex-character positions). -/
theorem refineVarint {bs : List Nat} (hb : isBytes bs) {pos v pos' : Nat}
    (h : specVarint bs pos = some (v, pos')) :
    parse_varint (hexOfBytes bs) (2 * pos) = .ok (v, 2 * pos') := by
  simp only [specVarint] at h
  by_cases hpos : pos < bs.length
  · rw [if_pos hpos] at h
    have hbb : bs.getD pos 0 < 256 := by
      have hmem : bs.getD pos 0 ∈ bs := by
        rw [List.getD_eq_getElem?_getD, List.getElem?_eq_getElem hpos]
        exact List.getElem_mem _
      exact hb _ hmem
    unfold parse_varint
    rw [pyslice_hex_first hpos, parseHexNat_hexByte hbb]
    simp only [ofOption_some, PyResult.ok_bind]
    by_cases h1 : bs.getD pos 0 < 0xFD
    · rw [if_pos h1] at h ⊢
      simp only [Option.some.injEq, Prod.mk.injEq] at h
      obtain ⟨hv, hp⟩ := h
      subst hv
      subst hp
      rw [show 2 * pos + 2 = 2 * (pos + 1) from by ring]
      rfl
    · rw [if_neg h1] at h ⊢
      by_cases h2 : bs.getD pos 0 = 0xFD
      · rw [if_pos h2] at h ⊢
        by_cases h3 : pos + 1 + 2 ≤ bs.length
        · rw [if_pos h3] at h
          simp only [Option.some.injEq, Prod.mk.injEq] at h
          obtain ⟨hv, hp⟩ := h
          subst hv
          subst hp
          rw [show 2 * pos + 2 + 4 = 2 * (pos + 3) from by ring,
            show 2 * pos + 2 = 2 * (pos + 1) from by ring, pyslice_hexOfBytes,
            bytesFromHex_hexOfBytes (isBytes_pyslice hb _ _)]
          simp only [ofOption_some, PyResult.ok_bind, PyResult.pure_eq]
        · rw [if_neg h3] at h
          exact absurd h (by simp)
      · rw [if_neg h2] at h ⊢
        by_cases h4 : bs.getD pos 0 = 0xFE
        · rw [if_pos h4] at h ⊢
          by_cases h3 : pos + 1 + 4 ≤ bs.length
          · rw [if_pos h3] at h
            simp only [Option.some.injEq, Prod.mk.injEq] at h
            obtain ⟨hv, hp⟩ := h
            subst hv
            subst hp
            rw [show 2 * pos + 2 + 8 = 2 * (pos + 5) from by ring,
              show 2 * pos + 2 = 2 * (pos + 1) from by ring, pyslice_hexOfBytes,
              bytesFromHex_hexOfBytes (isBytes_pyslice hb _ _)]
            simp only [ofOption_some, PyResult.ok_bind, PyResult.pure_eq]
          · rw [if_neg h3] at h
            exact absurd h (by simp)
        · rw [if_neg h4] at h ⊢
          by_cases h3 : pos + 1 + 8 ≤ bs.length
          · rw [if_pos h3] at h
            simp only [Option.some.injEq, Prod.mk.injEq] at h
            obtain ⟨hv, hp⟩ := h
            subst hv
            subst hp
            rw [show 2 * pos + 2 + 16 = 2 * (pos + 9) from by ring,
              show 2 * pos + 2 = 2 * (pos + 1) from by ring, pyslice_hexOfBytes,
              bytesFromHex_hexOfBytes (isBytes_pyslice hb _ _)]
            simp only [ofOption_some, PyResult.ok_bind, PyResult.pure_eq]
          · rw [if_neg h3] at h
            exact absurd h (by simp)
  · rw [if_neg hpos] at h
    exact absurd h (by simp)

theorem specAdvance_eq {len pos n q : Nat} (h : specAdvance len pos n = some q) :
    q = pos + n ∧ pos + n ≤ len := by
  unfold specAdvance at h
  split at h
  · rename_i hle
    simp only [Option.some.injEq] at h
    exact ⟨h.symm, hle⟩
  · exact absurd h (by simp)

theorem hexByte_inj {b c : Nat} (hb : b < 256) (hc : c < 256)
    (h : hexByte b = hexByte c) : b = c := by
  have h1 := parseHexNat_hexByte hb
  rw [h, parseHexNat_hexByte hc] at h1
  injection h1 with h2
  exact h2.symm

theorem hexByte_beq {b c : Nat} (hb : b < 256) (hc : c < 256) :
    (hexByte b == hexByte c) = (b == c) := by
  by_cases h : b = c
  · subst h
    simp
  · rw [beq_eq_false_iff_ne.mpr (fun hh => h (hexByte_inj hb hc hh)),
      beq_eq_false_iff_ne.mpr h]

theorem refineSkipInputs {bs : List Nat} (hb : isBytes bs) :
    ∀ (c pos pos' : Nat), specSkipInputs bs c pos = some pos' →
    skipInputs (hexOfBytes bs) c (2 * pos) = .ok (2 * pos') := by
  intro c
  induction c with
  | zero =>
    intro pos pos' h
    simp only [specSkipInputs, Option.some.injEq] at h
    subst h
    rfl
  | succ n ih =>
    intro pos pos' h
    simp only [specSkipInputs] at h
    rcases ha1 : specAdvance bs.length pos 32 with _ | pos1
    · rw [ha1] at h
      simp at h
    rw [ha1] at h
    simp only [Option.bind_eq_bind, Option.some_bind] at h
    obtain ⟨hq1, hb1⟩ := specAdvance_eq ha1
    subst hq1
    rcases ha2 : specAdvance bs.length (pos + 32) 4 with _ | pos2
    · rw [ha2] at h
      simp at h
    rw [ha2] at h
    simp only [Option.bind_eq_bind, Option.some_bind] at h
    obtain ⟨hq2, hb2⟩ := specAdvance_eq ha2
    subst hq2
    rcases hv : specVarint bs (pos + 32 + 4) with _ | ⟨sl, posv⟩
    · rw [hv] at h
      simp at h
    rw [hv] at h
    simp only [Option.bind_eq_bind, Option.some_bind] at h
    rcases ha3 : specAdvance bs.length posv sl with _ | pos3
    · rw [ha3] at h
      simp at h
    rw [ha3] at h
    simp only [Option.bind_eq_bind, Option.some_bind] at h
    obtain ⟨hq3, hb3⟩ := specAdvance_eq ha3
    subst hq3
    rcases ha4 : specAdvance bs.length (posv + sl) 4 with _ | pos4
    · rw [ha4] at h
      simp at h
    rw [ha4] at h
    simp only [Option.bind_eq_bind, Option.some_bind] at h
    obtain ⟨hq4, hb4⟩ := specAdvance_eq ha4
    subst hq4
    simp only [skipInputs]
    rw [show 2 * pos + 64 + 8 = 2 * (pos + 32 + 4) from by ring]
    rw [refineVarint hb hv]
    simp only [PyResult.ok_bind]
    rw [show 2 * posv + sl * 2 + 8 = 2 * (posv + sl + 4) from by ring]
    exact ih _ _ h

theorem refineOutputs {bs : List Nat} (hb : isBytes bs) :
    ∀ (c pos : Nat) (accB res : List (List Nat)) (pos' : Nat),
    specOutputs bs c pos accB = some (res, pos') →
    parseOutputs (hexOfBytes bs) c (2 * pos) (accB.map hexOfBytes) =
      .ok (res.map hexOfBytes, 2 * pos') := by
  intro c
  induction c with
  | zero =>
    intro pos accB res pos' h
    simp only [specOutputs, Option.some.injEq, Prod.mk.injEq] at h
    obtain ⟨hr, hp⟩ := h
    subst hr
    subst hp
    rfl
  | succ n ih =>
    intro pos accB res pos' h
    simp only [specOutputs] at h
    rcases ha1 : specAdvance bs.length pos 8 with _ | pos1
    · rw [ha1] at h
      simp at h
    rw [ha1] at h
    simp only [Option.bind_eq_bind, Option.some_bind] at h
    obtain ⟨hq1, hb1⟩ := specAdvance_eq ha1
    subst hq1
    rcases hv : specVarint bs (pos + 8) with _ | ⟨sl, posv⟩
    · rw [hv] at h
      simp at h
    rw [hv] at h
    simp only [Option.bind_eq_bind, Option.some_bind] at h
    rcases ha2 : specAdvance bs.length posv sl with _ | pos2
    · rw [ha2] at h
      simp at h
    rw [ha2] at h
    simp only [Option.bind_eq_bind, Option.some_bind] at h
    obtain ⟨hq2, hb2⟩ := specAdvance_eq ha2
    subst hq2
    simp only [parseOutputs]
    rw [show 2 * pos + 16 = 2 * (pos + 8) from by ring]
    rw [refineVarint hb hv]
    simp only [PyResult.ok_bind]
    rw [show 2 * posv + sl * 2 = 2 * (posv + sl) from by ring, pyslice_hexOfBytes]
    have := ih (posv + sl) (accB ++ [pyslice bs posv (posv + sl)]) res pos' h
    rw [List.map_append] at this
    simpa using this

theorem refineWitnessItems {bs : List Nat} (hb : isBytes bs) :
    ∀ (c pos pos' : Nat), specSkipWitnessItems bs c pos = some pos' →
    skipWitnessItems (hexOfBytes bs) c (2 * pos) = .ok (2 * pos') := by
  intro c
  induction c with
  | zero =>
    intro pos pos' h
    simp only [specSkipWitnessItems, Option.some.injEq] at h
    subst h
    rfl
  | succ n ih =>
    intro pos pos' h
    simp only [specSkipWitnessItems] at h
    rcases hv : specVarint bs pos with _ | ⟨il, posv⟩
    · rw [hv] at h
      simp at h
    rw [hv] at h
    simp only [Option.bind_eq_bind, Option.some_bind] at h
    rcases ha1 : specAdvance bs.length posv il with _ | pos1
    · rw [ha1] at h
      simp at h
    rw [ha1] at h
    simp only [Option.bind_eq_bind, Option.some_bind] at h
    obtain ⟨hq1, hb1⟩ := specAdvance_eq ha1
    subst hq1
    simp only [skipWitnessItems]
    rw [refineVarint hb hv]
    simp only [PyResult.ok_bind]
    rw [show 2 * posv + il * 2 = 2 * (posv + il) from by ring]
    exact ih _ _ h

theorem refineWitness {bs : List Nat} (hb : isBytes bs) :
    ∀ (c pos pos' : Nat), specSkipWitness bs c pos = some pos' →
    skipWitness (hexOfBytes bs) c (2 * pos) = .ok (2 * pos') := by
  intro c
  induction c with
  | zero =>
    intro pos pos' h
    simp only [specSkipWitness, Option.some.injEq] at h
    subst h
    rfl
  | succ n ih =>
    intro pos pos' h
    simp only [specSkipWitness] at h
    rcases hv : specVarint bs pos with _ | ⟨wc, posv⟩
    · rw [hv] at h
      simp at h
    rw [hv] at h
    simp only [Option.bind_eq_bind, Option.some_bind] at h
    rcases hwi : specSkipWitnessItems bs wc posv with _ | pos1
    · rw [hwi] at h
      simp at h
    rw [hwi] at h
    simp only [Option.bind_eq_bind, Option.some_bind] at h
    simp only [skipWitness]
    rw [refineVarint hb hv]
    simp only [PyResult.ok_bind]
    rw [refineWitnessItems hb _ _ _ hwi]
    simp only [PyResult.ok_bind]
    exact ih _ _ h

/-- The source's character-level segwit sniff agrees with the byte-level
marker/flag test. -/
theorem sniff_eq {bs : List Nat} (hb : isBytes bs) (hlen : 4 ≤ bs.length) :
    ((pyslice (hexOfBytes bs) 8 10 == ['0', '0']) &&
      (pyslice (hexOfBytes bs) 10 12 == ['0', '1'])) =
    (pyslice bs 4 6 == [0, 1]) := by
  match bs, hlen with
  | b0 :: b1 :: b2 :: b3 :: rest, _ =>
  have h8 : pyslice (hexOfBytes (b0 :: b1 :: b2 :: b3 :: rest)) 8 10 =
      hexOfBytes (pyslice (b0 :: b1 :: b2 :: b3 :: rest) 4 5) := by
    have := pyslice_hexOfBytes (b0 :: b1 :: b2 :: b3 :: rest) 4 5
    norm_num at this
    exact this
  have h10 : pyslice (hexOfBytes (b0 :: b1 :: b2 :: b3 :: rest)) 10 12 =
      hexOfBytes (pyslice (b0 :: b1 :: b2 :: b3 :: rest) 5 6) := by
    have := pyslice_hexOfBytes (b0 :: b1 :: b2 :: b3 :: rest) 5 6
    norm_num at this
    exact this
  rw [h8, h10]
  cases rest with
  | nil => rfl
  | cons b4 rest2 =>
    have hb4 : b4 < 256 := hb b4 (by simp)
    cases rest2 with
    | nil =>
      have e1 : pyslice (b0 :: b1 :: b2 :: b3 :: [b4]) 4 5 = [b4] := rfl
      have e2 : pyslice (b0 :: b1 :: b2 :: b3 :: [b4]) 5 6 = [] := rfl
      have e3 : pyslice (b0 :: b1 :: b2 :: b3 :: [b4]) 4 6 = [b4] := rfl
      rw [e1, e2, e3]
      have hr : (([b4] : List Nat) == [0, 1]) = false := by
        rw [beq_eq_false_iff_ne]
        intro hh
        injection hh with hh1 hh2
        exact absurd hh2 (by simp)
      rw [hr]
      simp [hexOfBytes]
    | cons b5 rest3 =>
      have hb5 : b5 < 256 := hb b5 (by simp)
      have e1 : pyslice (b0 :: b1 :: b2 :: b3 :: b4 :: b5 :: rest3) 4 5 = [b4] := rfl
      have e2 : pyslice (b0 :: b1 :: b2 :: b3 :: b4 :: b5 :: rest3) 5 6 = [b5] := rfl
      have e3 : pyslice (b0 :: b1 :: b2 :: b3 :: b4 :: b5 :: rest3) 4 6 = [b4, b5] := rfl
      rw [e1, e2, e3]
      have l1 : (hexOfBytes [b4] == ['0', '0']) = (b4 == 0) := by
        rw [show (['0', '0'] : List Char) = hexByte 0 from rfl,
          show hexOfBytes [b4] = hexByte b4 from by simp [hexOfBytes]]
        exact hexByte_beq hb4 (by norm_num)
      have l2 : (hexOfBytes [b5] == ['0', '1']) = (b5 == 1) := by
        rw [show (['0', '1'] : List Char) = hexByte 1 from rfl,
          show hexOfBytes [b5] = hexByte b5 from by simp [hexOfBytes]]
        exact hexByte_beq hb5 (by norm_num)
      rw [l1, l2]
      show (b4 == 0 && b5 == 1) = (([b4, b5] : List Nat) == [0, 1])
      by_cases h40 : b4 = 0
      · subst h40
        by_cases h51 : b5 = 1
        · subst h51
          rfl
        · rw [beq_eq_false_iff_ne.mpr h51,
            beq_eq_false_iff_ne.mpr (show ([0, b5] : List Nat) ≠ [0, 1] from by
              intro hh
              injection hh with hh1 hh2
              injection hh2 with hh3 hh4
              exact h51 hh3)]
          simp
      · rw [beq_eq_false_iff_ne.mpr h40,
          beq_eq_false_iff_ne.mpr (show ([b4, b5] : List Nat) ≠ [0, 1] from by
            intro hh
            injection hh with hh1 hh2
            exact h40 hh1)]
        simp

/-- Refinement: whenever the spec's fully bounds-checked walk succeeds,
the source walker returns the same (hex-imaged) script list. -/
theorem refine_extract {bs : List Nat} (hb : isBytes bs) {res : List (List Nat)}
    (h : extract_output_scripts_spec bs = some res) :
    extract_vout_scripts (hexOfBytes bs) = .ok (res.map hexOfBytes) := by
  simp only [extract_output_scripts_spec] at h
  rcases ha : specAdvance bs.length 0 4 with _ | p4
  · rw [ha] at h
    simp at h
  rw [ha] at h
  simp only [Option.bind_eq_bind, Option.some_bind] at h
  obtain ⟨hp4, hlen4⟩ := specAdvance_eq ha
  subst hp4
  norm_num at h
  simp only [extract_vout_scripts]
  rw [sniff_eq hb (by omega)]
  by_cases hsw : pyslice bs 4 6 = [0, 1]
  · rw [if_pos (by simp [hsw])]
    rw [if_pos hsw] at h
    rcases hv : specVarint bs 6 with _ | ⟨ic, p⟩
    · rw [hv] at h
      simp at h
    rw [hv] at h
    simp only [Option.bind_eq_bind, Option.some_bind] at h
    rcases hsk : specSkipInputs bs ic p with _ | p2
    · rw [hsk] at h
      simp at h
    rw [hsk] at h
    simp only [Option.bind_eq_bind, Option.some_bind] at h
    rcases hv2 : specVarint bs p2 with _ | ⟨oc, p3⟩
    · rw [hv2] at h
      simp at h
    rw [hv2] at h
    simp only [Option.bind_eq_bind, Option.some_bind] at h
    rcases hout : specOutputs bs oc p3 [] with _ | ⟨scripts, p5⟩
    · rw [hout] at h
      simp at h
    rw [hout] at h
    simp only [Option.bind_eq_bind, Option.some_bind] at h
    rw [if_pos hsw] at h
    rcases hwit : specSkipWitness bs ic p5 with _ | p6
    · rw [hwit] at h
      simp at h
    rw [hwit] at h
    simp only [Option.bind_eq_bind, Option.some_bind, Option.some.injEq] at h
    subst h
    rw [show (8 : Nat) + 4 = 2 * 6 from by norm_num]
    rw [refineVarint hb hv]
    simp only [PyResult.ok_bind]
    rw [refineSkipInputs hb _ _ _ hsk]
    simp only [PyResult.ok_bind]
    rw [refineVarint hb hv2]
    simp only [PyResult.ok_bind]
    have hOut2 := refineOutputs hb oc p3 [] scripts p5 hout
    simp only [List.map_nil] at hOut2
    rw [hOut2]
    simp only [PyResult.ok_bind]
    rw [if_pos (by simp [hsw])]
    rw [refineWitness hb _ _ _ hwit]
    simp only [PyResult.ok_bind]
    rfl
  · rw [if_neg (by simp [hsw])]
    rw [if_neg hsw] at h
    rcases hv : specVarint bs 4 with _ | ⟨ic, p⟩
    · rw [hv] at h
      simp at h
    rw [hv] at h
    simp only [Option.bind_eq_bind, Option.some_bind] at h
    rcases hsk : specSkipInputs bs ic p with _ | p2
    · rw [hsk] at h
      simp at h
    rw [hsk] at h
    simp only [Option.bind_eq_bind, Option.some_bind] at h
    rcases hv2 : specVarint bs p2 with _ | ⟨oc, p3⟩
    · rw [hv2] at h
      simp at h
    rw [hv2] at h
    simp only [Option.bind_eq_bind, Option.some_bind] at h
    rcases hout : specOutputs bs oc p3 [] with _ | ⟨scripts, p5⟩
    · rw [hout] at h
      simp at h
    rw [hout] at h
    simp only [Option.bind_eq_bind, Option.some_bind] at h
    rw [if_neg hsw] at h
    simp only [Option.bind_eq_bind, Option.some_bind, Option.some.injEq] at h
    subst h
    rw [show (8 : Nat) = 2 * 4 from by norm_num]
    rw [refineVarint hb hv]
    simp only [PyResult.ok_bind]
    rw [refineSkipInputs hb _ _ _ hsk]
    simp only [PyResult.ok_bind]
    rw [refineVarint hb hv2]
    simp only [PyResult.ok_bind]
    have hOut2 := refineOutputs hb oc p3 [] scripts p5 hout
    simp only [List.map_nil] at hOut2
    rw [hOut2]
    simp only [PyResult.ok_bind]
    rw [if_neg (by simp [hsw])]
    simp only [PyResult.pure_eq, PyResult.ok_bind]

/-! ### Claims C1, C3, C4: the transaction walker -/

/-- Byte ranges of the encoders. -/

theorem isBytes_encInput {i : TxInput} (h : wfInput i) : isBytes (encInput i) := by
  obtain ⟨_, htb, _, hvb, hsb, _, _, hqb⟩ := h
  unfold encInput
  simp only [isBytes_append]
  exact ⟨⟨⟨⟨htb, hvb⟩, isBytes_encodeVarint _⟩, hsb⟩, hqb⟩

theorem isBytes_encInputs {ins : List TxInput} (h : ∀ i ∈ ins, wfInput i) :
    isBytes (encInputs ins) := by
  induction ins with
  | nil => intro x hx; simp [encInputs] at hx
  | cons i is ih =>
    rw [show encInputs (i :: is) = encInput i ++ encInputs is from by simp [encInputs],
      isBytes_append]
    exact ⟨isBytes_encInput (h i (by simp)), ih (fun j hj => h j (by simp [hj]))⟩

theorem isBytes_encOutput {o : TxOutput} (h : wfOutput o) : isBytes (encOutput o) := by
  obtain ⟨_, hvb, hsb, _⟩ := h
  unfold encOutput
  simp only [isBytes_append]
  exact ⟨⟨hvb, isBytes_encodeVarint _⟩, hsb⟩

theorem isBytes_encOutputs {outs : List TxOutput} (h : ∀ o ∈ outs, wfOutput o) :
    isBytes (encOutputs outs) := by
  induction outs with
  | nil => intro x hx; simp [encOutputs] at hx
  | cons o os ih =>
    rw [show encOutputs (o :: os) = encOutput o ++ encOutputs os from by
      simp [encOutputs], isBytes_append]
    exact ⟨isBytes_encOutput (h o (by simp)), ih (fun p hp => h p (by simp [hp]))⟩

theorem isBytes_encWitness {w : List (List Nat)} (h : ∀ it ∈ w, isBytes it) :
    isBytes (encWitness w) := by
  unfold encWitness
  rw [isBytes_append]
  refine ⟨isBytes_encodeVarint _, ?_⟩
  induction w with
  | nil => intro x hx; simp at hx
  | cons it its ih =>
    rw [show ((it :: its).map encWitnessItem).flatten =
      encWitnessItem it ++ (its.map encWitnessItem).flatten from by simp, isBytes_append]
    refine ⟨?_, ih (fun j hj => h j (by simp [hj]))⟩
    unfold encWitnessItem
    rw [isBytes_append]
    exact ⟨isBytes_encodeVarint _, h it (by simp)⟩

theorem isBytes_encWitnesses {ws : List (List (List Nat))}
    (h : ∀ w ∈ ws, ∀ it ∈ w, isBytes it) : isBytes (encWitnesses ws) := by
  induction ws with
  | nil => intro x hx; simp [encWitnesses] at hx
  | cons w wss ih =>
    rw [show encWitnesses (w :: wss) = encWitness w ++ encWitnesses wss from by
      simp [encWitnesses], isBytes_append]
    exact ⟨isBytes_encWitness (h w (by simp)), ih (fun v hv => h v (by simp [hv]))⟩

theorem isBytes_encodeLegacy {ver : List Nat} {ins : List TxInput}
    {outs : List TxOutput} {lock : List Nat} (hvb : isBytes ver)
    (hins : ∀ i ∈ ins, wfInput i) (houts : ∀ o ∈ outs, wfOutput o)
    (hlb : isBytes lock) : isBytes (encodeLegacy ver ins outs lock) := by
  unfold encodeLegacy
  simp only [isBytes_append]
  exact ⟨⟨⟨⟨⟨hvb, isBytes_encodeVarint _⟩, isBytes_encInputs hins⟩,
    isBytes_encodeVarint _⟩, isBytes_encOutputs houts⟩, hlb⟩

theorem isBytes_encodeSegwit {ver : List Nat} {ins : List TxInput}
    {outs : List TxOutput} {wits : List (List (List Nat))} {lock : List Nat}
    (hvb : isBytes ver) (hins : ∀ i ∈ ins, wfInput i)
    (houts : ∀ o ∈ outs, wfOutput o) (hwb : ∀ w ∈ wits, ∀ it ∈ w, isBytes it)
    (hlb : isBytes lock) : isBytes (encodeSegwit ver ins outs wits lock) := by
  unfold encodeSegwit
  simp only [isBytes_append]
  refine ⟨⟨⟨⟨⟨⟨⟨hvb, ?_⟩, isBytes_encodeVarint _⟩, isBytes_encInputs hins⟩,
    isBytes_encodeVarint _⟩, isBytes_encOutputs houts⟩, isBytes_encWitnesses hwb⟩, hlb⟩
  intro x hx
  simp at hx
  rcases hx with h | h <;> omega

/-- A legacy transaction whose single output declares a 5-byte script but
whose buffer ends after one script byte. -/
def truncScriptTx : List Nat :=
  [1, 0, 0, 0] ++ [1] ++ List.replicate 32 0 ++ [0, 0, 0, 0] ++ [0] ++ [0, 0, 0, 0] ++
    [1] ++ List.replicate 8 0 ++ [5] ++ [0xaa]

/-- A complete legacy transaction: one input with an empty scriptSig, one
output with the 1-byte script `0xaa`. -/
def tinyLegacyTx : List Nat :=
  [1, 0, 0, 0] ++ [1] ++ List.replicate 32 0 ++ [0, 0, 0, 0] ++ [0] ++ [0, 0, 0, 0] ++
    [1] ++ List.replicate 8 0 ++ [1] ++ [0xaa]

/-- C1 counterexample: on `truncScriptTx` the spec's bounds-checked walk
aborts (the script capture runs out of range), but `extract_vout_scripts`
does not fail — it returns a partial list containing the truncated 1-byte
script (hex `"aa"`) in place of the declared 5-byte script. -/
theorem C1_counterexample :
    extract_output_scripts_spec truncScriptTx = none ∧
    extract_vout_scripts (hexOfBytes truncScriptTx) = .ok [['a', 'a']] :=
  ⟨rfl, rfl⟩

/-- C1 amended: whenever the spec's fully bounds-checked walk over the
byte buffer succeeds, `extract_vout_scripts` returns exactly that complete
ordered list (as hex strings); but an out-of-range read or advance does not
always abort the source walker — its slices clamp at the buffer end, so it
can return partial scripts where the checked walk fails. -/
theorem C1_walker_refines_checked_spec (bs : List Nat) (res : List (List Nat))
    (hb : isBytes bs) (h : extract_output_scripts_spec bs = some res) :
    extract_vout_scripts (hexOfBytes bs) = .ok (res.map hexOfBytes) :=
  refine_extract hb h

/-- Witness for the C1 amended theorem on a complete one-input one-output
legacy transaction. -/
theorem C1_walker_refines_checked_spec_witness :
    extract_vout_scripts (hexOfBytes tinyLegacyTx) =
      .ok (([[0xaa]] : List (List Nat)).map hexOfBytes) :=
  C1_walker_refines_checked_spec tinyLegacyTx [[0xaa]] (by decide) (by rfl)

/-- C3 counterexample: the legacy encoding with zero inputs and one output
begins with bytes `00 01` after the version, is mistaken for a segwit
marker/flag, and the walker returns the empty script list instead of the
one output script. -/
theorem C3_counterexample :
    extract_vout_scripts (hexOfBytes (encodeLegacy [1, 0, 0, 0] []
      [{ value := List.replicate 8 0, script := [0xaa] }] [0, 0, 0, 0])) = .ok [] ∧
    ([] : List (List Char)) ≠ [hexOfBytes [0xaa]] :=
  ⟨rfl, by simp⟩

/-- C3 amended: for every well-formed legacy transaction except the
ambiguous zero-input one-output case (whose encoding is byte-identical to
a segwit marker/flag), `extract_vout_scripts` returns exactly the `n`
output scripts in output order, regardless of the input count. -/
theorem C3_legacy_extracts_all_outputs (ver : List Nat) (ins : List TxInput)
    (outs : List TxOutput) (lock : List Nat) (h4 : ver.length = 4) (hvb : isBytes ver)
    (hins : ∀ i ∈ ins, wfInput i) (houts : ∀ o ∈ outs, wfOutput o) (hlb : isBytes lock)
    (hk : ins.length < 2 ^ 64) (hn : outs.length < 2 ^ 64)
    (hno : ¬ (ins = [] ∧ outs.length = 1)) :
    extract_vout_scripts (hexOfBytes (encodeLegacy ver ins outs lock)) =
      .ok (outs.map (fun o => hexOfBytes o.script)) := by
  have hspec := spec_extract_legacy ver ins outs lock h4 hins houts hk hn hno
  have hres := refine_extract (isBytes_encodeLegacy hvb hins houts hlb) hspec
  rw [List.map_map] at hres
  exact hres

/-- Witness for the C3 amended theorem: one input, one output carrying the
script `[0x6a]`. -/
theorem C3_legacy_extracts_all_outputs_witness :
    extract_vout_scripts (hexOfBytes (encodeLegacy [1, 0, 0, 0]
        [{ prev_txid := List.replicate 32 0, prev_vout := [0, 0, 0, 0],
           scriptSig := [], sequence := [0, 0, 0, 0] }]
        [{ value := List.replicate 8 0, script := [0x6a] }] [0, 0, 0, 0])) =
      .ok (([{ value := List.replicate 8 0, script := ([0x6a] : List Nat) }] :
        List TxOutput).map (fun o => hexOfBytes o.script)) :=
  C3_legacy_extracts_all_outputs _ _ _ _ (by decide) (by decide) (by decide) (by decide)
    (by decide) (by norm_num) (by norm_num) (by decide)

/-- C4: for every well-formed segwit transaction (marker `0x00`, flag
`0x01` after the version), `extract_vout_scripts` returns exactly the
output scripts that the legacy encoding of the same inputs and outputs
carries, in output order; the quantification over arbitrary witness data
shows no witness byte appears in or affects the returned scripts, and when
the input list is nonempty (so the legacy encoding itself parses as
legacy) the result is literally equal to the walker's result on the legacy
encoding. -/
theorem C4_segwit_extracts_same_scripts (ver : List Nat) (ins : List TxInput)
    (outs : List TxOutput) (wits : List (List (List Nat))) (lock : List Nat)
    (h4 : ver.length = 4) (hvb : isBytes ver)
    (hins : ∀ i ∈ ins, wfInput i) (houts : ∀ o ∈ outs, wfOutput o)
    (hwb : ∀ w ∈ wits, ∀ it ∈ w, isBytes it)
    (hwlen : ∀ w ∈ wits, w.length < 2 ^ 64 ∧ ∀ it ∈ w, it.length < 2 ^ 64)
    (hlb : isBytes lock) (hk : ins.length < 2 ^ 64) (hn : outs.length < 2 ^ 64)
    (hwl : wits.length = ins.length) :
    extract_vout_scripts (hexOfBytes (encodeSegwit ver ins outs wits lock)) =
      .ok (outs.map (fun o => hexOfBytes o.script)) ∧
    (ins ≠ [] →
      extract_vout_scripts (hexOfBytes (encodeSegwit ver ins outs wits lock)) =
        extract_vout_scripts (hexOfBytes (encodeLegacy ver ins outs lock))) := by
  have hspec := spec_extract_segwit ver ins outs wits lock h4 hins houts hwlen hk hn hwl
  have hres := refine_extract (isBytes_encodeSegwit hvb hins houts hwb hlb) hspec
  rw [List.map_map] at hres
  refine ⟨hres, ?_⟩
  intro hne
  have hspecL := spec_extract_legacy ver ins outs lock h4 hins houts hk hn
    (fun hc => hne hc.1)
  have hresL := refine_extract (isBytes_encodeLegacy hvb hins houts hlb) hspecL
  rw [List.map_map] at hresL
  rw [hres, hresL]

/-- Witness for C4: one input, one output, one witness stack holding one
2-byte item. -/
theorem C4_segwit_extracts_same_scripts_witness :
    (extract_vout_scripts (hexOfBytes (encodeSegwit [1, 0, 0, 0]
        [{ prev_txid := List.replicate 32 0, prev_vout := [0, 0, 0, 0],
           scriptSig := [], sequence := [0, 0, 0, 0] }]
        [{ value := List.replicate 8 0, script := [0x6a] }]
        [[[0xde, 0xad]]] [0, 0, 0, 0])) =
      .ok (([{ value := List.replicate 8 0, script := ([0x6a] : List Nat) }] :
        List TxOutput).map (fun o => hexOfBytes o.script)) ∧
    (([{ prev_txid := List.replicate 32 0, prev_vout := [0, 0, 0, 0],
         scriptSig := [], sequence := [0, 0, 0, 0] }] : List TxInput) ≠ [] →
      extract_vout_scripts (hexOfBytes (encodeSegwit [1, 0, 0, 0]
          [{ prev_txid := List.replicate 32 0, prev_vout := [0, 0, 0, 0],
             scriptSig := [], sequence := [0, 0, 0, 0] }]
          [{ value := List.replicate 8 0, script := [0x6a] }]
          [[[0xde, 0xad]]] [0, 0, 0, 0])) =
        extract_vout_scripts (hexOfBytes (encodeLegacy [1, 0, 0, 0]
          [{ prev_txid := List.replicate 32 0, prev_vout := [0, 0, 0, 0],
             scriptSig := [], sequence := [0, 0, 0, 0] }]
          [{ value := List.replicate 8 0, script := [0x6a] }] [0, 0, 0, 0])))) :=
  C4_segwit_extracts_same_scripts _ _ _ _ _ (by decide) (by decide) (by decide)
    (by decide) (by decide) (by norm_num) (by decide) (by norm_num) (by norm_num)
    (by decide)
